import Mathlib

/-!
# Verification of the KdG course-catalog export scripts

A shallow embedding of the two export pipelines
(`scripts/export_jobat.py` and `scripts/export_smartlions.py`) and proofs
about them.  Raw Airtable field values are modelled by the `Value` type
(strings, numbers, lists, null); Python numbers are modelled over `ℚ`
(decimal semantics; binary floating-point rounding noise is out of model);
Python `str` functions are modelled over ASCII semantics (`str.strip`,
`str.lower`, word characters); CPython's `urllib.parse` is modelled after
the 3.12 implementation of `urlsplit`/`urlunsplit`, eliding its
host-validation error paths (bracketed-host and non-ASCII netloc checks),
which only concern malformed exotic inputs.
-/

namespace KdgExport

/-- Python `str.strip()` whitespace (ASCII whitespace characters). -/
def pyIsSpace (c : Char) : Bool :=
  c = ' ' || c = '\t' || c = '\n' || c = '\x0d' || c = '\x0b' || c = '\x0c'

/-- Strip `pyIsSpace` characters from both ends of a character list. -/
def stripL (l : List Char) : List Char :=
  ((l.dropWhile pyIsSpace).reverse.dropWhile pyIsSpace).reverse

/-- Python `s.strip()` on a string. -/
def pyStrip (s : String) : String := ⟨stripL s.data⟩

/-- A scalar element of a raw list field (Airtable list fields hold
scalars: linked record ids, multiselect options, lookups). -/
inductive SValue where
  | null : SValue
  | str (s : String) : SValue
  | num (q : ℚ) : SValue
deriving DecidableEq

/-- A raw Airtable field value: the dynamically-typed values the scripts
actually receive (absent/null, string, number, list-of-scalars). -/
inductive Value where
  | null : Value
  | str (s : String) : Value
  | num (q : ℚ) : Value
  | list (vs : List SValue) : Value
deriving DecidableEq

/-- A raw record's `fields` mapping, as an association list. -/
abbrev Fields := List (String × Value)

/-- Python `fields.get(key, default)`: first binding wins. -/
def fget (f : Fields) (k : String) (d : Value) : Value :=
  match f.find? (fun kv => kv.1 = k) with
  | some kv => kv.2
  | none => d

/-- Python truthiness of a raw value. -/
def pyTruthy (v : Value) : Bool :=
  match v with
  | .null => false
  | .str s => s ≠ ""
  | .num q => q ≠ 0
  | .list vs => !vs.isEmpty

/-- Decimal rendering of a number, standing in for Python's `repr(float)`:
integral values render as `"n.0"`, other values with their decimal
expansion (up to 17 fractional digits; exact for the terminating decimals
the feeds contain). -/
def renderFloat (q : ℚ) : String :=
  let sign := if q < 0 then "-" else ""
  let a : ℚ := |q|
  let ip : ℕ := a.floor.toNat
  let frac : ℚ := a - a.floor
  let digits : List Char :=
    (List.range 17).foldl
      (fun (st : List Char × ℚ) _ =>
        let d : ℕ := (st.2 * 10).floor.toNat
        (st.1 ++ [Char.ofNat (48 + d % 10)], st.2 * 10 - (st.2 * 10).floor))
      ([], frac) |>.1
  let trimmed := (digits.reverse.dropWhile (fun c => c = '0')).reverse
  let fracStr := if trimmed.isEmpty then "0" else String.mk trimmed
  sign ++ toString ip ++ "." ++ fracStr

/-- Python `repr` of a scalar value. -/
def pyReprS : SValue → String
  | .null => "None"
  | .str s => "'" ++ s ++ "'"
  | .num q => renderFloat q

/-- Comma-joined `repr`s of a list of scalar values. -/
def pyReprSeq : List SValue → String
  | [] => ""
  | [v] => pyReprS v
  | v :: rest => pyReprS v ++ ", " ++ pyReprSeq rest

/-- Python `str()` of a scalar value. -/
def pySStr (v : SValue) : String :=
  match v with
  | .null => "None"
  | .str s => s
  | .num q => renderFloat q

/-- Python `str()` of a raw value. -/
def pyStr (v : Value) : String :=
  match v with
  | .null => "None"
  | .str s => s
  | .num q => renderFloat q
  | .list vs => "[" ++ pyReprSeq vs ++ "]"

/-- `norm_str` from both scripts: `"" if x is None else str(x).strip()`. -/
def normStr (v : Value) : String :=
  match v with
  | .null => ""
  | v => pyStrip (pyStr v)

/-- `norm_str` applied to an argument already known to be a string. -/
def normStrS (s : String) : String := pyStrip s

/-- Value of a digit string (digits only). -/
def digitsVal (l : List Char) : ℕ :=
  l.foldl (fun a c => a * 10 + (c.toNat - 48)) 0

/-- Exponent part of a float literal: `[+-]?digits`, consuming the whole
remainder. -/
def parseExpPart (l : List Char) : Option ℤ :=
  let p : ℤ × List Char :=
    match l with
    | '+' :: t => (1, t)
    | '-' :: t => (-1, t)
    | _ => (1, l)
  let ds := p.2.takeWhile Char.isDigit
  let rest := p.2.dropWhile Char.isDigit
  if ds.isEmpty || !rest.isEmpty then none
  else some (p.1 * (digitsVal ds : ℤ))

/-- Python `float(string)`: strip, optional sign, decimal digits with an
optional point and optional exponent.  (`inf`/`nan` and digit-group
underscores are out of model.) -/
def parseFloatL (l0 : List Char) : Option ℚ :=
  let l := stripL l0
  let sp : ℚ × List Char :=
    match l with
    | '+' :: t => (1, t)
    | '-' :: t => (-1, t)
    | _ => (1, l)
  let ip := sp.2.takeWhile Char.isDigit
  let r1 := sp.2.dropWhile Char.isDigit
  let fr : List Char × List Char :=
    match r1 with
    | '.' :: t => (t.takeWhile Char.isDigit, t.dropWhile Char.isDigit)
    | _ => ([], r1)
  let fp := fr.1
  let r2 := fr.2
  let hadDot : Bool := match r1 with | '.' :: _ => true | _ => false
  if ip.isEmpty && fp.isEmpty && !hadDot then none
  else if ip.isEmpty && fp.isEmpty then none
  else
    let mant : ℚ := (digitsVal (ip ++ fp) : ℚ)
    let scale : ℤ := -(fp.length : ℤ)
    match r2 with
    | [] => some (sp.1 * mant * (10 : ℚ) ^ scale)
    | 'e' :: t =>
        match parseExpPart t with
        | some e => some (sp.1 * mant * (10 : ℚ) ^ (scale + e))
        | none => none
    | 'E' :: t =>
        match parseExpPart t with
        | some e => some (sp.1 * mant * (10 : ℚ) ^ (scale + e))
        | none => none
    | _ => none

/-- Python `float(value)` on a raw value: numbers pass through, strings are
parsed, anything else raises (modelled as `none`). -/
def floatOfValue (v : Value) : Option ℚ :=
  match v with
  | .num q => some q
  | .str s => parseFloatL s.data
  | _ => none

/-- Python `int(float)`: truncation toward zero. -/
def truncQ (q : ℚ) : ℤ :=
  if 0 ≤ q then ⌊q⌋ else -⌊-q⌋

/-- `to_int` from both scripts: `None`/`""` give the default, otherwise
`int(float(value))`, any failure giving the default. -/
def toIntV (v : Value) (d : ℤ) : ℤ :=
  if v = Value.null ∨ v = Value.str "" then d
  else
    match floatOfValue v with
    | some q => truncQ q
    | none => d

/-- `to_float_or_none` from the Smartlions script. -/
def toFloatOrNone (v : Value) : Option ℚ :=
  match v with
  | .null => none
  | .str s => if pyStrip s = "" then none else parseFloatL s.data
  | .num q => some q
  | .list _ => none

/-- Round a rational to the nearest integer, ties to even
(the rounding used by Python's fixed-point formatting). -/
def roundHalfEvenZ (x : ℚ) : ℤ :=
  let f := ⌊x⌋
  let r := x - (f : ℚ)
  if r < 1 / 2 then f
  else if 1 / 2 < r then f + 1
  else if f % 2 = 0 then f else f + 1

/-- Left-pad a string with zeros to the given length. -/
def padZeros (s : String) (n : ℕ) : String :=
  ⟨List.replicate (n - s.data.length) '0' ++ s.data⟩

/-- Python `f"{num:.Nf}"` fixed-point formatting over `ℚ`. -/
def formatFixed (nd : ℕ) (q : ℚ) : String :=
  let m := roundHalfEvenZ (q * (10 : ℚ) ^ nd)
  let neg := m < 0
  let a := m.natAbs
  let ip := a / 10 ^ nd
  let fp := a % 10 ^ nd
  (if neg then "-" else "") ++ toString ip ++
    (if nd = 0 then "" else "." ++ padZeros (toString fp) nd)

/-- `price_to_2dec` from the Jobat script. -/
def priceTo2dec (v : Value) : String :=
  match v with
  | .null => ""
  | .str s =>
      if pyStrip s = "" then ""
      else
        match parseFloatL s.data with
        | some q => formatFixed 2 q
        | none => pyStrip s
  | v =>
      match floatOfValue v with
      | some q => formatFixed 2 q
      | none => pyStrip (pyStr v)

/-- `duration_length_format` from the Jobat script: integral values render
without a decimal part, others with one fixed decimal digit, unparsable
text passes through trimmed. -/
def durationLengthFormat (v : Value) : String :=
  if v = Value.null then ""
  else
    let txt := pyStrip (pyStr v)
    if txt = "" then ""
    else
      match parseFloatL txt.data with
      | some q => if q.den = 1 then toString q.num else formatFixed 1 q
      | none => txt

/-- `cdata` from the Jobat script: `None` becomes the empty string, then the
content is wrapped in the literal CDATA delimiters. -/
def cdataV (v : Value) : String :=
  "<![CDATA[" ++ (if v = Value.null then "" else pyStr v) ++ "]]>"

/-- Word character for the regex `\b` boundary (ASCII `\w`). -/
def isWordChar (c : Char) : Bool := c.isAlphanum || c = '_'

/-- First alternative of the hour group: `[01]\d` or `2[0-3]`. -/
def hourOk (a b : Char) : Bool :=
  ((a = '0' || a = '1') && b.isDigit) || (a = '2' && ('0' ≤ b && b ≤ '3'))

/-- Minute pattern `[0-5]\d`. -/
def minuteOk (a b : Char) : Bool :=
  ('0' ≤ a && a ≤ '5') && b.isDigit

/-- `\b` holds before the match: start of string or a non-word character. -/
def boundaryBefore (prev : Option Char) : Bool :=
  match prev with
  | none => true
  | some c => !isWordChar c

/-- `\b` holds after the match: end of string or a non-word character. -/
def boundaryAfter (rest : List Char) : Bool :=
  match rest with
  | [] => true
  | c :: _ => !isWordChar c

/-- `re.findall(r"\b([01]\d|2[0-3]):[0-5]\d\b", s)`: scan left to right for
non-overlapping matches; the pattern's single capture group spans only the
hour, so each reported match is the two hour characters. -/
def findTimes : Option Char → List Char → List String
  | prev, h1 :: h2 :: ':' :: m1 :: m2 :: rest =>
      if boundaryBefore prev && hourOk h1 h2 && minuteOk m1 m2 &&
          boundaryAfter rest then
        String.mk [h1, h2] :: findTimes (some m2) rest
      else
        findTimes (some h1) (h2 :: ':' :: m1 :: m2 :: rest)
  | _, [] => []
  | _, c :: cs => findTimes (some c) cs

/-- `extract_times` from the Smartlions script. -/
def extractTimes (hoursStr : String) : String × String :=
  let s := pyStrip hoursStr
  match findTimes none s.data with
  | t1 :: t2 :: _ => (t1, t2)
  | _ => ("", "")

/-- Python `s.replace(" ", "-")`. -/
def spaceToHyphen (s : String) : String :=
  ⟨s.data.map (fun c => if c = ' ' then '-' else c)⟩

/-- Python slicing `s[:n]`. -/
def takeChars (n : ℕ) (s : String) : String := ⟨s.data.take n⟩

/-- `make_session_id` from the Smartlions script: both arguments are
trimmed, the date is cut to its first ten characters, and every space in
the joined id is replaced by a hyphen. -/
def makeSessionId (internalId kind dateStr : String) : String :=
  let iid := pyStrip internalId
  let ds := takeChars 10 (pyStrip dateStr)
  spaceToHyphen (iid ++ "-" ++ kind ++ "-" ++ ds)

/-! ## String helpers: substring replace and split -/

/-- Does `pat` start the list `l`? -/
def startsWithL : List Char → List Char → Bool
  | [], _ => true
  | _ :: _, [] => false
  | p :: ps, x :: xs => p = x && startsWithL ps xs

/-- Python `s.replace(pat, rep)` on character lists: non-overlapping
replacement, scanning left to right (for nonempty `pat`). -/
def replaceL (pat rep : List Char) : List Char → List Char
  | [] => []
  | c :: cs =>
      if h : pat ≠ [] ∧ startsWithL pat (c :: cs) = true then
        rep ++ replaceL pat rep ((c :: cs).drop pat.length)
      else
        c :: replaceL pat rep cs
termination_by l => l.length
decreasing_by
· have hp : 1 ≤ pat.length := by
    cases pat with
    | nil => exact absurd rfl h.1
    | cons a as => simp
  simp only [List.length_drop, List.length_cons]
  omega
· simp

/-- Python `s.replace(pat, rep)` on strings. -/
def replaceStr (s pat rep : String) : String :=
  ⟨replaceL pat.data rep.data s.data⟩

/-- Python `s.split(sep)` for a single-character separator: keeps empty
segments. -/
def splitOnCharL (sep : Char) : List Char → List (List Char)
  | [] => [[]]
  | c :: cs =>
      if c = sep then [] :: splitOnCharL sep cs
      else
        match splitOnCharL sep cs with
        | h :: t => (c :: h) :: t
        | [] => [[c]]

/-- `", ".join(xs)`. -/
def commaJoin (xs : List String) : String := String.intercalate ", " xs

/-- Python `s.upper()` (ASCII). -/
def pyUpper (s : String) : String := ⟨s.data.map Char.toUpper⟩

/-! ## Composite normalizers: skills and government subsidy -/

/-- The shared fallback branch of `skills_to_comma_string` (identical in
both scripts): a list joins its non-blank entries with `", "`; a string is
trimmed, and if it is semicolon- but not comma-separated it is split on
`";"` and rejoined with `", "`; anything else gives `""`. -/
def skillsRaw (f : Fields) : String :=
  match fget f "skills" (.str "") with
  | .list vs =>
      commaJoin ((vs.map (fun x => pyStrip (pySStr x))).filter (fun t => t ≠ ""))
  | .str raw =>
      let txt := pyStrip raw
      if txt = "" then ""
      else if txt.data.contains ';' && !txt.data.contains ',' then
        commaJoin (((splitOnCharL ';' txt.data).map (fun p => pyStrip ⟨p⟩)).filter
          (fun t => t ≠ ""))
      else txt
  | _ => ""

/-- `skills_to_comma_string` from the Jobat script (note: it strips again
after the semicolon normalization). -/
def skillsToCommaStringJ (f : Fields) : String :=
  match fget f "skills_export" (.str "") with
  | .str s0 =>
      if pyStrip s0 ≠ "" then
        pyStrip (replaceStr (replaceStr (pyStrip s0) "; " ", ") ";" ", ")
      else skillsRaw f
  | _ => skillsRaw f

/-- `skills_to_comma_string` from the Smartlions script (no second strip). -/
def skillsToCommaStringS (f : Fields) : String :=
  match fget f "skills_export" (.str "") with
  | .str s0 =>
      if pyStrip s0 ≠ "" then
        replaceStr (replaceStr (pyStrip s0) "; " ", ") ";" ", "
      else skillsRaw f
  | _ => skillsRaw f

/-- The inline `government_subsidy` expression of the Jobat assembler
(string branch does not strip). -/
def governmentSubsidyJ (f : Fields) : String :=
  match fget f "government_subsidy" (.str "") with
  | .list vs =>
      commaJoin ((vs.map (fun x => pyStrip (pySStr x))).filter (fun t => t ≠ ""))
  | .str s => replaceStr (replaceStr s "; " ", ") ";" ", "
  | _ => ""

/-- `government_subsidy_to_comma` from the Smartlions script (string branch
strips first). -/
def governmentSubsidyS (f : Fields) : String :=
  match fget f "government_subsidy" (.str "") with
  | .list vs =>
      commaJoin ((vs.map (fun x => pyStrip (pySStr x))).filter (fun t => t ≠ ""))
  | .str s => replaceStr (replaceStr (pyStrip s) "; " ", ") ";" ", "
  | _ => ""

/-! ## Date reformatting (`ymd_to_dmy`) -/

/-- Days in a month of the proleptic Gregorian calendar. -/
def daysInMonth (y m : ℕ) : ℕ :=
  if m = 2 then (if (y % 4 = 0 ∧ y % 100 ≠ 0) ∨ y % 400 = 0 then 29 else 28)
  else if m = 4 ∨ m = 6 ∨ m = 9 ∨ m = 11 then 30
  else 31

/-- `datetime.strptime(s, "%Y-%m-%d")`: 1-4 year digits, 1-2 month digits,
1-2 day digits, the whole string consumed, and the date valid
(year at least 1). -/
def parseYmd (l : List Char) : Option (ℕ × ℕ × ℕ) :=
  let ys := l.takeWhile Char.isDigit
  let r1 := l.dropWhile Char.isDigit
  if ys.length = 0 ∨ ys.length > 4 then none else
  match r1 with
  | '-' :: r2 =>
      let ms := r2.takeWhile Char.isDigit
      let r3 := r2.dropWhile Char.isDigit
      if ms.length = 0 ∨ ms.length > 2 then none else
      match r3 with
      | '-' :: r4 =>
          let ds := r4.takeWhile Char.isDigit
          let r5 := r4.dropWhile Char.isDigit
          if ds.length = 0 ∨ ds.length > 2 ∨ r5 ≠ [] then none else
          let y := digitsVal ys
          let m := digitsVal ms
          let d := digitsVal ds
          if 1 ≤ y ∧ 1 ≤ m ∧ m ≤ 12 ∧ 1 ≤ d ∧ d ≤ daysInMonth y m then
            some (y, m, d)
          else none
      | _ => none
  | _ => none

/-- Zero-pad to two digits. -/
def pad2 (n : ℕ) : String := padZeros (toString n) 2

/-- Zero-pad to four digits. -/
def pad4 (n : ℕ) : String := padZeros (toString n) 4

/-- `ymd_to_dmy` from the Smartlions script: trim, parse the first ten
characters as `YYYY-MM-DD`, render as `DD/MM/YYYY`; unparsable input passes
through trimmed. -/
def ymdToDmy (dateStr : String) : String :=
  let s := pyStrip dateStr
  if s = "" then ""
  else
    match parseYmd (s.data.take 10) with
    | some ymd => pad2 ymd.2.2 ++ "/" ++ pad2 ymd.2.1 ++ "/" ++ pad4 ymd.1
    | none => s

/-! ## URL model (`urllib.parse`, CPython 3.12 semantics) -/

/-- ASCII letter. -/
def isAsciiAlpha (c : Char) : Bool :=
  ('a' ≤ c && c ≤ 'z') || ('A' ≤ c && c ≤ 'Z')

/-- `scheme_chars` of `urllib.parse`. -/
def isSchemeChar (c : Char) : Bool :=
  isAsciiAlpha c || c.isDigit || c = '+' || c = '-' || c = '.'

/-- Lowercase a character list (ASCII). -/
def lowerL (l : List Char) : List Char := l.map Char.toLower

/-- A C0 control character or space (WHATWG leading-strip set). -/
def isC0OrSpace (c : Char) : Bool := c.val ≤ 32

/-- The unsafe bytes `urlsplit` removes everywhere: tab, CR, LF. -/
def isUnsafeUrlByte (c : Char) : Bool := c = '\t' || c = '\x0d' || c = '\n'

/-- `urlsplit` preprocessing: strip leading C0-control/space characters,
then remove tab/CR/LF everywhere. -/
def preprocessUrl (l : List Char) : List Char :=
  (l.dropWhile isC0OrSpace).filter (fun c => !isUnsafeUrlByte c)

/-- The scheme split of `urlsplit`: if the first colon is preceded by a
nonempty run of scheme characters starting with an ASCII letter, the run
(lowercased) is the scheme and parsing continues after the colon. -/
def schemeSplit (url : List Char) : List Char × List Char :=
  match url.dropWhile (fun c => c ≠ ':'), url.takeWhile (fun c => c ≠ ':') with
  | ':' :: rest, p0 :: ps =>
      if isAsciiAlpha p0 && (p0 :: ps).all isSchemeChar then
        (lowerL (p0 :: ps), rest)
      else ([], url)
  | _, _ => ([], url)

/-- A character ending the netloc. -/
def isNetlocEnd (c : Char) : Bool := c = '/' || c = '?' || c = '#'

/-- The netloc split of `urlsplit`: after a leading `//`, the netloc runs
to the next `/`, `?` or `#`.  (The stdlib's bracketed-host and non-ASCII
netloc validation errors are out of model.) -/
def netlocSplit (url : List Char) : List Char × List Char :=
  match url with
  | '/' :: '/' :: rest =>
      (rest.takeWhile (fun c => !isNetlocEnd c),
       rest.dropWhile (fun c => !isNetlocEnd c))
  | _ => ([], url)

/-- `url.partition('#')`: fragment is everything after the first `#`
(empty when there is none). -/
def fragSplit (url : List Char) : List Char × List Char :=
  (url.takeWhile (fun c => c ≠ '#'), (url.dropWhile (fun c => c ≠ '#')).tail)

/-- `url.partition('?')`: query is everything after the first `?`
(empty when there is none). -/
def querySplit (url : List Char) : List Char × List Char :=
  (url.takeWhile (fun c => c ≠ '?'), (url.dropWhile (fun c => c ≠ '?')).tail)

/-- The result of `urlsplit`. -/
structure SplitR where
  scheme : List Char
  netloc : List Char
  rawpath : List Char
  query : List Char
  fragment : List Char
deriving DecidableEq

/-- `urllib.parse.urlsplit` (CPython 3.12; host-validation error paths out
of model). -/
def urlsplitM (l : List Char) : SplitR :=
  let url0 := preprocessUrl l
  let s := schemeSplit url0
  let n := netlocSplit s.2
  let f := fragSplit n.2
  let q := querySplit f.1
  ⟨s.1, n.1, q.1, q.2, f.2⟩

/-- The segment of `p` after its last `/` (all of `p` when there is none). -/
def afterLastSlash (p : List Char) : List Char :=
  (p.reverse.takeWhile (fun c => c ≠ '/')).reverse

/-- The part of `p` up to and including its last `/`. -/
def upToLastSlash (p : List Char) : List Char :=
  (p.reverse.dropWhile (fun c => c ≠ '/')).reverse

/-- `_splitparams` as called by `urlparse`: when the path contains `;`,
split the params off at the first `;` after the last `/` (or the first `;`
overall when there is no `/`). -/
def splitParamsM (p : List Char) : List Char × List Char :=
  if p.contains ';' then
    if p.contains '/' then
      let suf := afterLastSlash p
      if suf.contains ';' then
        (upToLastSlash p ++ suf.takeWhile (fun c => c ≠ ';'),
         (suf.dropWhile (fun c => c ≠ ';')).tail)
      else (p, [])
    else
      (p.takeWhile (fun c => c ≠ ';'), (p.dropWhile (fun c => c ≠ ';')).tail)
  else (p, [])

/-- The result of `urlparse` (6 components). -/
structure ParseR where
  scheme : List Char
  netloc : List Char
  path : List Char
  params : List Char
  query : List Char
  fragment : List Char
deriving DecidableEq

/-- `urllib.parse.urlparse`. -/
def urlparseM (l : List Char) : ParseR :=
  let r := urlsplitM l
  let pp := splitParamsM r.rawpath
  ⟨r.scheme, r.netloc, pp.1, pp.2, r.query, r.fragment⟩

/-- `urllib.parse.urlunsplit`. -/
def urlunsplitM (scheme netloc url query fragment : List Char) : List Char :=
  let url1 :=
    if netloc ≠ [] ∨ url.take 2 = ['/', '/'] then
      '/' :: '/' :: (netloc ++
        (if url ≠ [] ∧ url.take 1 ≠ ['/'] then '/' :: url else url))
    else url
  let url2 := if scheme ≠ [] then scheme ++ ':' :: url1 else url1
  let url3 := if query ≠ [] then url2 ++ '?' :: query else url2
  if fragment ≠ [] then url3 ++ '#' :: fragment else url3

/-- The params rejoin step of `urlunparse`:
`if params: url = "%s;%s" % (url, params)`. -/
def rejoinParams (pp : List Char × List Char) : List Char :=
  if pp.2 ≠ [] then pp.1 ++ ';' :: pp.2 else pp.1

/-- `urllib.parse.urlunparse`. -/
def urlunparseM (scheme netloc path params query fragment : List Char) :
    List Char :=
  urlunsplitM scheme netloc (rejoinParams (path, params)) query fragment

/-- The Jobat UTM query constant. -/
def utmJobat : List Char := "utm_source=jobat&utm_medium=affiliate".data

/-- The Smartlions UTM query constant. -/
def utmSmartlions : List Char := "utm_source=smartlions&utm_medium=affiliate".data

/-- `add_jobat_utm` from the Jobat script: empty input gives `""`; a URL
whose parse has a query is returned unchanged; otherwise the fixed Jobat
UTM query is installed by `urlunparse`. -/
def addJobatUtm (url : String) : String :=
  if url = "" then ""
  else
    let p := urlparseM url.data
    if p.query ≠ [] then url
    else ⟨urlunparseM p.scheme p.netloc p.path p.params utmJobat p.fragment⟩

/-- `add_utm` from the Smartlions script: the input is first `norm_str`ed;
a blank input is returned as `""`; a URL whose parse has a query is
returned (trimmed) unchanged; otherwise the fixed Smartlions UTM query is
installed by `urlunparse`. -/
def addUtm (url : String) : String :=
  let u := pyStrip url
  if u = "" then u
  else
    let p := urlparseM u.data
    if p.query ≠ [] then u
    else ⟨urlunparseM p.scheme p.netloc p.path p.params utmSmartlions p.fragment⟩

/-- The string actually handed to `urlparse` by the Jobat assembler for a
raw `webaddress` field value.  Airtable URL fields are strings; `None` is
caught by the `if not url` guard (modelled as `""`), and other non-string
values are modelled via their string image. -/
def urlArgString (v : Value) : String :=
  match v with
  | .str s => s
  | .null => ""
  | v => pyStr v

/-! ## Source records, blocks and the session join -/

/-- A fetched Airtable record: stable record id plus its fields mapping. -/
structure SourceRec where
  id : String
  fields : Fields
deriving DecidableEq

/-- The Smartlions `location_and_date` block
(`build_location_and_date_block`): all seven fields always present. -/
structure LadBlockS where
  date_start : String
  date_end : String
  hours : String
  location_name : String
  location_address : String
  location_zip : String
  location_city : String
deriving DecidableEq

/-- `build_location_and_date_block` from the Smartlions script. -/
def buildLocationAndDateBlock (sf : Fields) : LadBlockS where
  date_start := normStr (fget sf "date_start" .null)
  date_end := normStr (fget sf "date_end" .null)
  hours := normStr (fget sf "hours" .null)
  location_name := normStr (fget sf "location_name" .null)
  location_address := normStr (fget sf "location_address" .null)
  location_zip := normStr (fget sf "location_zip" .null)
  location_city := normStr (fget sf "location_city" .null)

/-- `any(v for v in lad_block.values())`: at least one field non-empty. -/
def ladAny (b : LadBlockS) : Bool :=
  b.date_start ≠ "" || b.date_end ≠ "" || b.hours ≠ "" ||
  b.location_name ≠ "" || b.location_address ≠ "" ||
  b.location_zip ≠ "" || b.location_city ≠ ""

/-- The Jobat `location_and_date` block (`build_location_block`): six
required fields, three optional ones present only when non-empty. -/
structure LadBlockJ where
  date_start : String
  date_end : String
  hours : String
  location_name : String
  location_address : String
  location_zip : String
  location_city : Option String
  maximum_participants : Option String
  registration_deadline : Option String
deriving DecidableEq

/-- `build_location_block` from the Jobat script. -/
def buildLocationBlock (sf : Fields) : LadBlockJ :=
  let city := normStr (fget sf "location_city" .null)
  let maxp := normStr (fget sf "maximum_participants" .null)
  let reg := normStr (fget sf "registration_deadline" .null)
  { date_start := normStr (fget sf "date_start" .null)
    date_end := normStr (fget sf "date_end" .null)
    hours := normStr (fget sf "hours" .null)
    location_name := normStr (fget sf "location_name" .null)
    location_address := normStr (fget sf "location_address" .null)
    location_zip := normStr (fget sf "location_zip" .null)
    location_city := if city ≠ "" then some city else none
    maximum_participants := if maxp ≠ "" then some maxp else none
    registration_deadline := if reg ≠ "" then some reg else none }

/-- A Smartlions `sessions` entry. -/
structure SessionBlock where
  date : String
  sessionDescription : String
  sessionId : String
  locationName : String
  address : String
  zipCode : String
  city : String
  startTime : String
  endTime : String
deriving DecidableEq

/-- `build_smartlions_sessions_from_session_record`: zero, one or two
session blocks (a start event and an end event) depending on which dates
are filled. -/
def buildSmartlionsSessions (internalId : String) (sf : Fields) :
    List SessionBlock :=
  let startDate := normStr (fget sf "date_start" .null)
  let endDate := normStr (fget sf "date_end" .null)
  let hours := normStr (fget sf "hours" .null)
  let locationName := normStr (fget sf "location_name" .null)
  let address := normStr (fget sf "location_address" .null)
  let zipCode := normStr (fget sf "location_zip" .null)
  let city := normStr (fget sf "location_city" .null)
  let times := extractTimes hours
  (if startDate ≠ "" then
    [{ date := ymdToDmy startDate
       sessionDescription := "Startdatum"
       sessionId := makeSessionId internalId "start" startDate
       locationName := locationName
       address := address
       zipCode := zipCode
       city := city
       startTime := times.1
       endTime := times.2 }]
   else []) ++
  (if endDate ≠ "" then
    [{ date := ymdToDmy endDate
       sessionDescription := "Einddatum"
       sessionId := makeSessionId internalId "end" endDate
       locationName := locationName
       address := address
       zipCode := zipCode
       city := city
       startTime := times.1
       endTime := times.2 }]
   else [])

/-- The Smartlions `course_id_to_internal` dictionary: record id mapped to
the course's non-blank `internal_id` (a later record with the same id
overwrites an earlier one, as a dict insert does). -/
def courseIdToInternal (crs : List SourceRec) (cid : String) : Option String :=
  (crs.filterMap (fun cr =>
    let iid := normStr (fget cr.fields "internal_id" .null)
    if cr.id = cid ∧ iid ≠ "" then some iid else none)).getLast?

/-- Coerce a raw value into a scalar (used when a singular link value is
wrapped into a one-element list; the list case cannot reach here). -/
def valueToScalar : Value → SValue
  | .null => .null
  | .str s => .str s
  | .num q => .num q
  | .list _ => .null

/-- The normalized link list of a Session Record: a list field is used as
is, a truthy singular value is wrapped, anything falsy gives `[]`. -/
def linkedOf (linkField : String) (sf : Fields) : List SValue :=
  match fget sf linkField (.list []) with
  | .list vs => vs
  | v => if pyTruthy v then [valueToScalar v] else []

/-- Resolve a Session Record's link entries through
`course_id_to_internal`; entries that are not strings or miss the
string-keyed dict are skipped (`if not iid: continue`). -/
def resolveIids (crs : List SourceRec) (linkField : String) (sf : Fields) :
    List String :=
  (linkedOf linkField sf).filterMap (fun cv =>
    match cv with
    | .str cid =>
        match courseIdToInternal crs cid with
        | some iid => if iid = "" then none else some iid
        | none => none
    | _ => none)

/-- The Smartlions `lad_by_internal` grouping: for each Session Record, in
fetch order, the block is appended once per resolved parent occurrence,
and only when at least one of its fields is non-empty. -/
def ladByInternal (crs : List SourceRec) (linkField : String)
    (srs : List SourceRec) (iid : String) : List LadBlockS :=
  srs.flatMap (fun sr =>
    let b := buildLocationAndDateBlock sr.fields
    if ladAny b then
      ((resolveIids crs linkField sr.fields).filter (fun j => j = iid)).map
        (fun _ => b)
    else [])

/-- The Smartlions `sessions_by_internal` grouping before sorting and
deduplication. -/
def sessionsByInternalRaw (crs : List SourceRec) (linkField : String)
    (srs : List SourceRec) (iid : String) : List SessionBlock :=
  srs.flatMap (fun sr =>
    ((resolveIids crs linkField sr.fields).filter (fun j => j = iid)).flatMap
      (fun j => buildSmartlionsSessions j sr.fields))

/-- The `lad_sort` key order: `(date_start, location_name, hours)`,
lexicographic Python tuple comparison. -/
def ladSortKeyLe (a b : LadBlockS) : Prop :=
  a.date_start < b.date_start ∨
    (a.date_start = b.date_start ∧
      (a.location_name < b.location_name ∨
        (a.location_name = b.location_name ∧ a.hours ≤ b.hours)))

instance : DecidableRel ladSortKeyLe := fun a b => by
  unfold ladSortKeyLe; infer_instance

/-- The Smartlions session sort key order: `(date, sessionDescription)`. -/
def sessSortKeyLe (a b : SessionBlock) : Prop :=
  a.date < b.date ∨ (a.date = b.date ∧ a.sessionDescription ≤ b.sessionDescription)

instance : DecidableRel sessSortKeyLe := fun a b => by
  unfold sessSortKeyLe; infer_instance

/-- The dedupe loop of the Smartlions driver: walk the sorted blocks with a
`seen` set of ids; a block whose non-empty id was seen is dropped, a block
with a fresh non-empty id is kept and its id recorded, a block with an
empty id is always kept. -/
def dedupeSessions : List SessionBlock → List String → List SessionBlock
  | [], _ => []
  | s :: rest, seen =>
      if s.sessionId ≠ "" ∧ s.sessionId ∈ seen then dedupeSessions rest seen
      else if s.sessionId ≠ "" then
        s :: dedupeSessions rest (s.sessionId :: seen)
      else s :: dedupeSessions rest seen

/-- A course's final sorted `location_and_date` list. -/
def finalLad (crs : List SourceRec) (linkField : String)
    (srs : List SourceRec) (iid : String) : List LadBlockS :=
  List.insertionSort ladSortKeyLe (ladByInternal crs linkField srs iid)

/-- A course's final `sessions` list: sorted by `(date,
sessionDescription)` then deduplicated by `sessionId`. -/
def finalSessions (crs : List SourceRec) (linkField : String)
    (srs : List SourceRec) (iid : String) : List SessionBlock :=
  dedupeSessions
    (List.insertionSort sessSortKeyLe (sessionsByInternalRaw crs linkField srs iid))
    []

/-! ## The Smartlions record assembler and driver -/

/-- One assembled Smartlions output object, fields in the source's
insertion order. -/
structure SmartRecord where
  internal_id : String
  title : String
  language : String
  webaddress : String
  provider : String
  domain_category : String
  domain_subcategory : String
  duration_length : Value
  duration_type : String
  course_type : ℤ
  degree_type : ℤ
  job_title : String
  job_function_category : ℤ
  esco_category_code : String
  nacebel_sector : String
  price : Option ℚ
  government_subsidy : String
  skills : String
  audience : String
  required_knowledge : String
  certificate_name : String
  email : String
  course_image : String
  description : String
  description_program : String
  description_extrainfo : String
  location_and_date : List LadBlockS
  sessions : List SessionBlock
deriving DecidableEq

/-- The per-course body of the Smartlions driver's output loop. -/
def assembleSmartlions (crs : List SourceRec) (linkField : String)
    (srs : List SourceRec) (cr : SourceRec) : SmartRecord :=
  let f := cr.fields
  let iid := normStr (fget f "internal_id" .null)
  { internal_id := iid
    title := normStr (fget f "title" .null)
    language := pyUpper (normStr (fget f "language" .null))
    webaddress := addUtm (normStr (fget f "webaddress" .null))
    provider := "Karel de Grote Hogeschool"
    domain_category := normStr (fget f "domain_category" .null)
    domain_subcategory := normStr (fget f "domain_subcategory" .null)
    duration_length := fget f "duration_length" .null
    duration_type := normStr (fget f "duration_type" .null)
    course_type := toIntV (fget f "course_type" .null) 0
    degree_type := toIntV (fget f "degree_type" .null) 0
    job_title := normStr (fget f "job_title" .null)
    job_function_category := toIntV (fget f "job_function_category" .null) 0
    esco_category_code := normStr (fget f "esco_category_code" .null)
    nacebel_sector := normStr (fget f "nacebel_sector" .null)
    price := toFloatOrNone (fget f "price" .null)
    government_subsidy := governmentSubsidyS f
    skills := skillsToCommaStringS f
    audience := normStr (fget f "audience" .null)
    required_knowledge := normStr (fget f "required_knowledge" .null)
    certificate_name := normStr (fget f "certificate_name" .null)
    email := normStr (fget f "email" .null)
    course_image := normStr (fget f "course_image" .null)
    description := normStr (fget f "description_html" .null)
    description_program := normStr (fget f "description_program_html" .null)
    description_extrainfo := normStr (fget f "description_extrainfo_html" .null)
    location_and_date := finalLad crs linkField srs iid
    sessions := finalSessions crs linkField srs iid }

/-- The final sort key order of the Smartlions driver:
`key=lambda x: x.get("internal_id", "")`. -/
def smartKeyLe (a b : SmartRecord) : Prop := a.internal_id ≤ b.internal_id

instance : DecidableRel smartKeyLe := fun a b => by
  unfold smartKeyLe; infer_instance

instance : IsTotal SmartRecord smartKeyLe :=
  ⟨fun a b => le_total a.internal_id b.internal_id⟩

instance : IsTrans SmartRecord smartKeyLe :=
  ⟨fun _ _ _ hab hbc => le_trans hab hbc⟩

/-- `main` of `export_smartlions.py`, as a function of the fetched course
and session records (and the configured link field name): build the lookup
and the two groupings, assemble each course record, and sort the output by
`internal_id`. -/
def smartlionsMain (crs srs : List SourceRec) (linkField : String) :
    List SmartRecord :=
  List.insertionSort smartKeyLe (crs.map (assembleSmartlions crs linkField srs))

/-! ## The Jobat record assembler and driver -/

/-- One assembled Jobat output object, fields in the source's insertion
order; fields copied with a bare `f.get(...)` keep their raw value. -/
structure JobatRecord where
  internal_id : Value
  title : Value
  language : Value
  price : String
  certificate_name : Value
  course_image : Value
  email : Value
  job_title : Value
  skills : String
  audience : Value
  domain_category : Value
  domain_subcategory : Value
  webaddress : String
  degree_type : ℤ
  duration_length : String
  duration_type : Value
  provider : String
  course_type : ℤ
  description : String
  description_program : String
  description_extrainfo : String
  job_function_category : ℤ
  esco_category_code : ℤ
  nacebel_sector : Value
  required_knowledge : Value
  government_subsidy : String
  location_and_date : List LadBlockJ
deriving DecidableEq

/-- The Jobat `sessions_by_id` grouping: sessions grouped by their own
non-blank normalized `internal_id` (implicit shared-key join). -/
def jobatGroup (srs : List SourceRec) (iid : String) : List LadBlockJ :=
  srs.flatMap (fun sr =>
    let k := normStr (fget sr.fields "internal_id" .null)
    if k ≠ "" ∧ k = iid then [buildLocationBlock sr.fields] else [])

/-- The Jobat per-group sort key order:
`(date_start, location_name, hours)`. -/
def ladJKeyLe (a b : LadBlockJ) : Prop :=
  a.date_start < b.date_start ∨
    (a.date_start = b.date_start ∧
      (a.location_name < b.location_name ∨
        (a.location_name = b.location_name ∧ a.hours ≤ b.hours)))

instance : DecidableRel ladJKeyLe := fun a b => by
  unfold ladJKeyLe; infer_instance

/-- A course's sorted Jobat `location_and_date` group. -/
def jobatSorted (srs : List SourceRec) (iid : String) : List LadBlockJ :=
  List.insertionSort ladJKeyLe (jobatGroup srs iid)

/-- `sessions_by_id.get(f.get("internal_id", ""), [])`: the dict is keyed
by strings, so a non-string raw `internal_id` misses it. -/
def jobatLookup (srs : List SourceRec) (v : Value) : List LadBlockJ :=
  match v with
  | .str s => jobatSorted srs s
  | _ => []

/-- The per-course body of the Jobat driver's output loop. -/
def assembleJobat (srs : List SourceRec) (cr : SourceRec) : JobatRecord :=
  let f := cr.fields
  { internal_id := fget f "internal_id" (.str "")
    title := fget f "title" (.str "")
    language := fget f "language" (.str "")
    price := priceTo2dec (fget f "price" (.str ""))
    certificate_name := fget f "certificate_name" (.str "")
    course_image := fget f "course_image" (.str "")
    email := fget f "email" (.str "")
    job_title := fget f "job_title" (.str "")
    skills := skillsToCommaStringJ f
    audience := fget f "audience" (.str "")
    domain_category := fget f "domain_category" (.str "")
    domain_subcategory := fget f "domain_subcategory" (.str "")
    webaddress := addJobatUtm (urlArgString (fget f "webaddress" (.str "")))
    degree_type := toIntV (fget f "degree_type" (.str "")) 0
    duration_length := durationLengthFormat (fget f "duration_length" (.str ""))
    duration_type := fget f "duration_type" (.str "")
    provider := "Karel de Grote Hogeschool"
    course_type := toIntV (fget f "course_type" (.str "")) 0
    description := cdataV (fget f "description_html" (.str ""))
    description_program := cdataV (fget f "description_program_html" (.str ""))
    description_extrainfo := cdataV (fget f "description_extrainfo_html" (.str ""))
    job_function_category := toIntV (fget f "job_function_category" (.str "")) 0
    esco_category_code := toIntV (fget f "esco_category_code" (.str "")) 0
    nacebel_sector := fget f "nacebel_sector" (.str "")
    required_knowledge := fget f "required_knowledge" (.str "")
    government_subsidy := governmentSubsidyJ f
    location_and_date := jobatLookup srs (fget f "internal_id" (.str "")) }

/-- `main` of `export_jobat.py` as a function of the fetched course and
session records.  The source file has an indentation slip (its session
grouping sits at top level, a structural defect the spec notes); this
embedding follows the statements of the file with the intended, well-formed
control flow: group and sort the sessions once, then assemble every fetched
course record, in fetch order.  The source's output loop appends in fetch
order and writes `output` without any sort. -/
def jobatMain (crs srs : List SourceRec) : List JobatRecord :=
  crs.map (assembleJobat srs)

/-! ## JSON serialization (`json.dump(..., ensure_ascii=False, indent=2)`) -/

/-- Lowercase hex digit. -/
def hexDigit (n : ℕ) : Char :=
  if n < 10 then Char.ofNat (48 + n) else Char.ofNat (87 + n)

/-- JSON string escaping: quote, backslash, the short control escapes, and
`\u00XX` for the remaining control characters (`ensure_ascii=False` leaves
other characters literal). -/
def jsonEscapeChar (c : Char) : List Char :=
  if c = '"' then ['\\', '"']
  else if c = '\\' then ['\\', '\\']
  else if c = '\n' then ['\\', 'n']
  else if c = '\t' then ['\\', 't']
  else if c = '\x0d' then ['\\', 'r']
  else if c = '\x08' then ['\\', 'b']
  else if c = '\x0c' then ['\\', 'f']
  else if c.val < 32 then
    ['\\', 'u', '0', '0', hexDigit (c.toNat / 16), hexDigit (c.toNat % 16)]
  else [c]

/-- A JSON string literal. -/
def jsonStr (s : String) : String :=
  "\"" ++ ⟨s.data.flatMap jsonEscapeChar⟩ ++ "\""

/-- `2*n` spaces (`indent=2` at nesting depth `n`). -/
def indentSp (n : ℕ) : String := ⟨List.replicate (2 * n) ' '⟩

/-- A JSON array whose closing bracket sits at depth `d`; empty arrays
render as `[]`. -/
def jsonArr (d : ℕ) (items : List String) : String :=
  if items.isEmpty then "[]"
  else
    "[\n" ++ String.intercalate ",\n" (items.map (fun s => indentSp (d + 1) ++ s)) ++
      "\n" ++ indentSp d ++ "]"

/-- A JSON object whose closing brace sits at depth `d`; empty objects
render as `\x7b\x7d`. -/
def jsonObj (d : ℕ) (kvs : List (String × String)) : String :=
  if kvs.isEmpty then "\x7b\x7d"
  else
    "\x7b\n" ++
      String.intercalate ",\n"
        (kvs.map (fun kv => indentSp (d + 1) ++ jsonStr kv.1 ++ ": " ++ kv.2)) ++
      "\n" ++ indentSp d ++ "\x7d"

/-- JSON rendering of a scalar value. -/
def jsonSValue : SValue → String
  | .null => "null"
  | .str s => jsonStr s
  | .num q => renderFloat q

/-- JSON rendering of a raw value at depth `d`. -/
def jsonValueAt (d : ℕ) : Value → String
  | .null => "null"
  | .str s => jsonStr s
  | .num q => renderFloat q
  | .list [] => "[]"
  | .list vs =>
      "[\n" ++
        String.intercalate ",\n"
          (vs.map (fun v => indentSp (d + 1) ++ jsonSValue v)) ++
        "\n" ++ indentSp d ++ "]"

/-- JSON rendering of a Jobat location block (optional keys only when
present). -/
def jsonLadJ (d : ℕ) (b : LadBlockJ) : String :=
  jsonObj d
    ([("date_start", jsonStr b.date_start),
      ("date_end", jsonStr b.date_end),
      ("hours", jsonStr b.hours),
      ("location_name", jsonStr b.location_name),
      ("location_address", jsonStr b.location_address),
      ("location_zip", jsonStr b.location_zip)] ++
     (match b.location_city with
      | some c => [("location_city", jsonStr c)]
      | none => []) ++
     (match b.maximum_participants with
      | some m => [("maximum_participants", jsonStr m)]
      | none => []) ++
     (match b.registration_deadline with
      | some r => [("registration_deadline", jsonStr r)]
      | none => []))

/-- JSON rendering of a Smartlions location block. -/
def jsonLadS (d : ℕ) (b : LadBlockS) : String :=
  jsonObj d
    [("date_start", jsonStr b.date_start),
     ("date_end", jsonStr b.date_end),
     ("hours", jsonStr b.hours),
     ("location_name", jsonStr b.location_name),
     ("location_address", jsonStr b.location_address),
     ("location_zip", jsonStr b.location_zip),
     ("location_city", jsonStr b.location_city)]

/-- JSON rendering of a Smartlions session block. -/
def jsonSession (d : ℕ) (s : SessionBlock) : String :=
  jsonObj d
    [("date", jsonStr s.date),
     ("sessionDescription", jsonStr s.sessionDescription),
     ("sessionId", jsonStr s.sessionId),
     ("locationName", jsonStr s.locationName),
     ("address", jsonStr s.address),
     ("zipCode", jsonStr s.zipCode),
     ("city", jsonStr s.city),
     ("startTime", jsonStr s.startTime),
     ("endTime", jsonStr s.endTime)]

/-- JSON rendering of one Jobat output object. -/
def jsonJobatRecord (r : JobatRecord) : String :=
  jsonObj 1
    [("internal_id", jsonValueAt 2 r.internal_id),
     ("title", jsonValueAt 2 r.title),
     ("language", jsonValueAt 2 r.language),
     ("price", jsonStr r.price),
     ("certificate_name", jsonValueAt 2 r.certificate_name),
     ("course_image", jsonValueAt 2 r.course_image),
     ("email", jsonValueAt 2 r.email),
     ("job_title", jsonValueAt 2 r.job_title),
     ("skills", jsonStr r.skills),
     ("audience", jsonValueAt 2 r.audience),
     ("domain_category", jsonValueAt 2 r.domain_category),
     ("domain_subcategory", jsonValueAt 2 r.domain_subcategory),
     ("webaddress", jsonStr r.webaddress),
     ("degree_type", toString r.degree_type),
     ("duration_length", jsonStr r.duration_length),
     ("duration_type", jsonValueAt 2 r.duration_type),
     ("provider", jsonStr r.provider),
     ("course_type", toString r.course_type),
     ("description", jsonStr r.description),
     ("description_program", jsonStr r.description_program),
     ("description_extrainfo", jsonStr r.description_extrainfo),
     ("job_function_category", toString r.job_function_category),
     ("esco_category_code", toString r.esco_category_code),
     ("nacebel_sector", jsonValueAt 2 r.nacebel_sector),
     ("required_knowledge", jsonValueAt 2 r.required_knowledge),
     ("government_subsidy", jsonStr r.government_subsidy),
     ("location_and_date", jsonArr 2 (r.location_and_date.map (jsonLadJ 3)))]

/-- JSON rendering of one Smartlions output object. -/
def jsonSmartRecord (r : SmartRecord) : String :=
  jsonObj 1
    [("internal_id", jsonStr r.internal_id),
     ("title", jsonStr r.title),
     ("language", jsonStr r.language),
     ("webaddress", jsonStr r.webaddress),
     ("provider", jsonStr r.provider),
     ("domain_category", jsonStr r.domain_category),
     ("domain_subcategory", jsonStr r.domain_subcategory),
     ("duration_length", jsonValueAt 2 r.duration_length),
     ("duration_type", jsonStr r.duration_type),
     ("course_type", toString r.course_type),
     ("degree_type", toString r.degree_type),
     ("job_title", jsonStr r.job_title),
     ("job_function_category", toString r.job_function_category),
     ("esco_category_code", jsonStr r.esco_category_code),
     ("nacebel_sector", jsonStr r.nacebel_sector),
     ("price", match r.price with | some q => renderFloat q | none => "null"),
     ("government_subsidy", jsonStr r.government_subsidy),
     ("skills", jsonStr r.skills),
     ("audience", jsonStr r.audience),
     ("required_knowledge", jsonStr r.required_knowledge),
     ("certificate_name", jsonStr r.certificate_name),
     ("email", jsonStr r.email),
     ("course_image", jsonStr r.course_image),
     ("description", jsonStr r.description),
     ("description_program", jsonStr r.description_program),
     ("description_extrainfo", jsonStr r.description_extrainfo),
     ("location_and_date", jsonArr 2 (r.location_and_date.map (jsonLadS 3))),
     ("sessions", jsonArr 2 (r.sessions.map (jsonSession 3)))]

/-- The serialized Jobat feed: the bytes written to `data/jobat.json` for a
given fetched source state. -/
def jobatSerialized (crs srs : List SourceRec) : String :=
  jsonArr 0 ((jobatMain crs srs).map jsonJobatRecord)

/-- The serialized Smartlions feed: the bytes written to
`data/smartlions.json` for a given fetched source state. -/
def smartlionsSerialized (crs srs : List SourceRec) (linkField : String) :
    String :=
  jsonArr 0 ((smartlionsMain crs srs linkField).map jsonSmartRecord)

/-! ## Helper lemmas -/

theorem spaceToHyphen_of_no_space (s : String) (h : ∀ c ∈ s.data, c ≠ ' ') :
    spaceToHyphen s = s := by
  unfold spaceToHyphen
  cases s with
  | mk l =>
    congr 1
    calc l.map (fun c => if c = ' ' then '-' else c)
        = l.map id := List.map_congr_left (fun c hc => by simp [h c hc])
      _ = l := List.map_id l

/-! ## C1: the time-range extractor -/

/-- C1: the claim fails as stated — on the spec's own scenario input
`"09:00-17:00"` the extractor returns the bare hours `("09", "17")`, not
the full `HH:MM` pair, because the single capture group of the pattern
`\b([01]\d|2[0-3]):[0-5]\d\b` spans only the hour alternation and
`re.findall` reports captures, not whole matches.  This contradicts the
function's own docstring and the spec scenario, so the code is the slip. -/
theorem extractTimes_hour_only :
    extractTimes "09:00-17:00" = ("09", "17") ∧
    (("09", "17") : String × String) ≠ ("09:00", "17:00") := by
  constructor
  · decide
  · decide

/-! ## C2: output ordering of the two drivers -/

/-- C2 counterexample: a Jobat run over two course records fetched in
descending `internal_id` order writes them in that same order — the Jobat
driver never sorts its output, so the claim that both pipelines sort by
`internal_id` is false. -/
theorem jobat_output_unsorted :
    ((jobatMain
        [⟨"r1", [("internal_id", Value.str "B")]⟩,
         ⟨"r2", [("internal_id", Value.str "A")]⟩] []).map
      (fun r => r.internal_id)) = [Value.str "B", Value.str "A"] ∧
    ¬ (("B" : String) ≤ "A") := by
  constructor
  · decide
  · rw [String.le_iff_toList_le]
    decide

/-- C2 (amended): the Smartlions driver sorts its Output Records by
`internal_id` ascending (string order, so the empty string sorts first);
the Jobat driver does not sort — its Output Records appear in Course
Record fetch order, carrying each course's raw `internal_id` value. -/
theorem smartlions_sorted_jobat_fetch_order (crs srs : List SourceRec)
    (lf : String) :
    List.Sorted smartKeyLe (smartlionsMain crs srs lf) ∧
    (jobatMain crs srs).map (fun r => r.internal_id) =
      crs.map (fun cr => fget cr.fields "internal_id" (Value.str "")) := by
  constructor
  · exact List.sorted_insertionSort smartKeyLe _
  · simp only [jobatMain, List.map_map]
    exact List.map_congr_left (fun cr _ => rfl)

/-! ## C7: the CDATA wrapper -/

/-- C7 counterexample: `cdata(None)` is the CDATA-wrapped empty string,
not the empty string, so the claim that a null input maps to `""` is
false. -/
theorem cdata_null_not_empty :
    cdataV Value.null = "<![CDATA[]]>" ∧ cdataV Value.null ≠ "" := by
  constructor
  · rfl
  · decide

/-- C7 (amended): `cdata` replaces a null input by the empty string and
then wraps any content — the empty replacement included — in the literal
prefix `<![CDATA[` and suffix `]]>`. -/
theorem cdata_wraps (s : String) :
    cdataV (Value.str s) = "<![CDATA[" ++ s ++ "]]>" ∧
    cdataV Value.null = "<![CDATA[" ++ "" ++ "]]>" := by
  constructor
  · simp [cdataV, pyStr]
  · rfl

/-! ## C8: synthetic session identifiers -/

/-- C8 counterexample: for a Session Record with internal id `"a b"` and
start date `"2024-03-01"` the derived identifier is
`"a-b-start-2024-03-01"` — `make_session_id` replaces spaces with
hyphens — so it differs from the claimed `"{i}-start-{d}"`. -/
theorem sessionId_space_hyphen :
    ((buildSmartlionsSessions "a b"
        [("date_start", Value.str "2024-03-01")]).map
      (fun s => s.sessionId)) = ["a-b-start-2024-03-01"] ∧
    ("a-b-start-2024-03-01" : String) ≠ "a b" ++ "-start-" ++ "2024-03-01" := by
  constructor
  · decide
  · decide

/-- C8 (amended): a Session Record yields one session block per filled
date, the start (resp. end) block carrying identifier
`make_session_id(i, "start"|"end", d)`, which is `"{i}-{kind}-{d}"` after
trimming both parts, cutting the date to ten characters, and replacing
spaces by hyphens; for a trimmed, space-free id and a trimmed, space-free
date of at most ten characters this is exactly the claimed
`"{i}-start-{d}"` / `"{i}-end-{d}"`. -/
theorem sessionId_formula :
    (∀ (iid : String) (sf : Fields),
      (buildSmartlionsSessions iid sf).map (fun s => s.sessionId) =
        (if normStr (fget sf "date_start" .null) ≠ "" then
          [makeSessionId iid "start" (normStr (fget sf "date_start" .null))]
         else []) ++
        (if normStr (fget sf "date_end" .null) ≠ "" then
          [makeSessionId iid "end" (normStr (fget sf "date_end" .null))]
         else [])) ∧
    (∀ i k d : String, pyStrip i = i → (∀ c ∈ i.data, c ≠ ' ') →
      pyStrip d = d → (∀ c ∈ d.data, c ≠ ' ') → d.data.length ≤ 10 →
      (∀ c ∈ k.data, c ≠ ' ') →
      makeSessionId i k d = i ++ "-" ++ k ++ "-" ++ d) := by
  constructor
  · intro iid sf
    by_cases h1 : normStr (fget sf "date_start" .null) ≠ "" <;>
      by_cases h2 : normStr (fget sf "date_end" .null) ≠ "" <;>
        simp [buildSmartlionsSessions, h1, h2]
  · intro i k d hi hci hd hcd hlen hck
    have htake : takeChars 10 (pyStrip d) = d := by
      rw [hd]
      unfold takeChars
      cases d with
      | mk l => exact congrArg String.mk (List.take_of_length_le hlen)
    unfold makeSessionId
    rw [hi, htake]
    apply spaceToHyphen_of_no_space
    intro c hc
    have hdash : ("-" : String).data = ['-'] := rfl
    simp only [String.data_append, List.mem_append, hdash,
      List.mem_singleton] at hc
    rcases hc with ((((h | h) | h) | h) | h)
    · exact hci c h
    · subst h; decide
    · exact hck c h
    · subst h; decide
    · exact hcd c h

/-- Witness for C8 (amended) at the spec's scenario values. -/
theorem sessionId_formula_witness :
    makeSessionId "C1" "start" "2024-03-01" =
      "C1" ++ "-" ++ "start" ++ "-" ++ "2024-03-01" :=
  sessionId_formula.2 "C1" "start" "2024-03-01" (by decide) (by decide)
    (by decide) (by decide) (by decide) (by decide)

/-! ## C4: all-empty location blocks are discarded -/

/-- Every block in a `lad_by_internal` group has a non-empty field. -/
theorem mem_ladByInternal_ladAny (crs : List SourceRec) (lf : String)
    (srs : List SourceRec) (iid : String) (b : LadBlockS)
    (hb : b ∈ ladByInternal crs lf srs iid) : ladAny b = true := by
  simp only [ladByInternal, List.mem_flatMap] at hb
  obtain ⟨sr, _, hb⟩ := hb
  by_cases h : ladAny (buildLocationAndDateBlock sr.fields) = true
  · rw [if_pos h] at hb
    obtain ⟨j, _, rfl⟩ := List.mem_map.mp hb
    exact h
  · rw [if_neg h] at hb
    exact absurd hb (List.not_mem_nil b)

/-- C4: a Location/Date Block reaches a parent's list only when at least
one of its fields is non-empty: every block of every Smartlions Output
Record satisfies `ladAny`, and session records whose block is all-empty
contribute nothing to any parent's group. -/
theorem lad_blocks_never_empty (crs : List SourceRec) (lf : String)
    (srs : List SourceRec) (iid : String) :
    ((smartlionsMain crs srs lf).all
      (fun r => r.location_and_date.all ladAny)) = true ∧
    ladByInternal crs lf
      (srs.filter (fun sr => !(ladAny (buildLocationAndDateBlock sr.fields))))
      iid = [] := by
  constructor
  · rw [List.all_eq_true]
    intro r hr
    have hr' : r ∈ crs.map (assembleSmartlions crs lf srs) :=
      (List.perm_insertionSort smartKeyLe _).mem_iff.mp hr
    obtain ⟨cr, _, rfl⟩ := List.mem_map.mp hr'
    rw [List.all_eq_true]
    intro b hb
    exact mem_ladByInternal_ladAny crs lf srs _ b
      ((List.perm_insertionSort ladSortKeyLe _).mem_iff.mp hb)
  · simp only [ladByInternal, List.flatMap_eq_nil_iff]
    intro sr hsr
    have : ladAny (buildLocationAndDateBlock sr.fields) = false := by
      simpa using (List.mem_filter.mp hsr).2
    simp [this]

/-! ## C6: fan-out and silent drop in the explicit-link join -/

/-- C6: in the Smartlions join a Session Record contributes its
Location/Date Block to every parent its link resolves to (so a record
linked to two courses lands in both lists), and a Session Record whose
link resolves to no known parent contributes to no group at all — the
join is a total function, so no error is possible. -/
theorem session_join_fanout (crs : List SourceRec) (lf : String)
    (srs : List SourceRec) (sr : SourceRec) (iid : String) :
    (sr ∈ srs → iid ∈ resolveIids crs lf sr.fields →
      ladAny (buildLocationAndDateBlock sr.fields) = true →
      buildLocationAndDateBlock sr.fields ∈ ladByInternal crs lf srs iid ∧
      buildLocationAndDateBlock sr.fields ∈ finalLad crs lf srs iid) ∧
    (resolveIids crs lf sr.fields = [] →
      ∀ j : String, ladByInternal crs lf [sr] j = [] ∧
        sessionsByInternalRaw crs lf [sr] j = []) := by
  constructor
  · intro hmem hres hany
    have h1 : buildLocationAndDateBlock sr.fields ∈
        ladByInternal crs lf srs iid := by
      simp only [ladByInternal, List.mem_flatMap]
      refine ⟨sr, hmem, ?_⟩
      rw [if_pos hany]
      exact List.mem_map.mpr
        ⟨iid, List.mem_filter.mpr ⟨hres, by simp⟩, rfl⟩
    exact ⟨h1, (List.perm_insertionSort ladSortKeyLe _).mem_iff.mpr h1⟩
  · intro hres j
    constructor <;> simp [ladByInternal, sessionsByInternalRaw, hres]

/-- Witness for C6: a session linked to two course records lands in both
parents' final lists, and a session linked only to an unknown record id
contributes nothing. -/
theorem session_join_fanout_witness :
    (buildLocationAndDateBlock
        [("Course", Value.list [SValue.str "recA", SValue.str "recB"]),
         ("location_name", Value.str "Campus Zuid")] ∈
      finalLad
        [⟨"recA", [("internal_id", Value.str "A")]⟩,
         ⟨"recB", [("internal_id", Value.str "B")]⟩]
        "Course"
        [⟨"recS", [("Course", Value.list [SValue.str "recA", SValue.str "recB"]),
          ("location_name", Value.str "Campus Zuid")]⟩]
        "A") ∧
    (buildLocationAndDateBlock
        [("Course", Value.list [SValue.str "recA", SValue.str "recB"]),
         ("location_name", Value.str "Campus Zuid")] ∈
      finalLad
        [⟨"recA", [("internal_id", Value.str "A")]⟩,
         ⟨"recB", [("internal_id", Value.str "B")]⟩]
        "Course"
        [⟨"recS", [("Course", Value.list [SValue.str "recA", SValue.str "recB"]),
          ("location_name", Value.str "Campus Zuid")]⟩]
        "B") ∧
    ladByInternal
      [⟨"recA", [("internal_id", Value.str "A")]⟩,
       ⟨"recB", [("internal_id", Value.str "B")]⟩]
      "Course"
      [⟨"recX", [("Course", Value.list [SValue.str "recZ"]),
        ("location_name", Value.str "Campus Zuid")]⟩]
      "A" = [] := by
  refine ⟨?_, ?_, ?_⟩
  · exact ((session_join_fanout _ "Course" _
      ⟨"recS", [("Course", Value.list [SValue.str "recA", SValue.str "recB"]),
        ("location_name", Value.str "Campus Zuid")]⟩ "A").1
      (by decide) (by decide) (by decide)).2
  · exact ((session_join_fanout _ "Course" _
      ⟨"recS", [("Course", Value.list [SValue.str "recA", SValue.str "recB"]),
        ("location_name", Value.str "Campus Zuid")]⟩ "B").1
      (by decide) (by decide) (by decide)).2
  · exact (((session_join_fanout
      [⟨"recA", [("internal_id", Value.str "A")]⟩,
       ⟨"recB", [("internal_id", Value.str "B")]⟩] "Course" []
      ⟨"recX", [("Course", Value.list [SValue.str "recZ"]),
        ("location_name", Value.str "Campus Zuid")]⟩ "A").2
      (by decide)) "A").1

/-! ## C3: session sort-and-dedupe -/

/-- The dedupe loop keeps the id list duplicate-free: when every incoming
block has a non-empty id, the retained ids are pairwise distinct and none
was in the incoming `seen` set. -/
theorem dedupe_sessions_nodup (l : List SessionBlock) (seen : List String)
    (h : ∀ s ∈ l, s.sessionId ≠ "") :
    ((dedupeSessions l seen).map (fun s => s.sessionId)).Nodup ∧
      ∀ s ∈ dedupeSessions l seen, s.sessionId ∉ seen := by
  induction l generalizing seen with
  | nil => simp [dedupeSessions]
  | cons a rest ih =>
    have ha : a.sessionId ≠ "" := h a (List.mem_cons_self a rest)
    have h' : ∀ s ∈ rest, s.sessionId ≠ "" :=
      fun s hs => h s (List.mem_cons_of_mem a hs)
    by_cases hseen : a.sessionId ∈ seen
    · rw [dedupeSessions, if_pos ⟨ha, hseen⟩]
      exact ih seen h'
    · rw [dedupeSessions, if_neg (fun hc => hseen hc.2), if_pos ha]
      obtain ⟨ihn, ihs⟩ := ih (a.sessionId :: seen) h'
      constructor
      · rw [List.map_cons, List.nodup_cons]
        refine ⟨fun hcontra => ?_, ihn⟩
        obtain ⟨s, hs, hsid⟩ := List.mem_map.mp hcontra
        exact (ihs s hs) (hsid ▸ List.mem_cons_self a.sessionId seen)
      · intro s hs
        rcases List.mem_cons.mp hs with rfl | hs
        · exact hseen
        · exact fun hc => (ihs s hs) (List.mem_cons_of_mem _ hc)

/-- The dedupe loop keeps, for each non-empty id, exactly the first block
of the incoming order bearing it (none if the id was already seen). -/
theorem dedupe_sessions_filter (l : List SessionBlock) (seen : List String)
    (x : String) (hx : x ≠ "") :
    (dedupeSessions l seen).filter (fun s => s.sessionId == x) =
      if x ∈ seen then [] else
        (l.filter (fun s => s.sessionId == x)).take 1 := by
  induction l generalizing seen with
  | nil => simp [dedupeSessions]
  | cons a rest ih =>
    by_cases hax : a.sessionId = x
    · have ha : a.sessionId ≠ "" := by rw [hax]; exact hx
      by_cases hseen : a.sessionId ∈ seen
      · have hxseen : x ∈ seen := hax ▸ hseen
        rw [dedupeSessions, if_pos ⟨ha, hseen⟩, ih seen, if_pos hxseen,
          if_pos hxseen]
      · have hxseen : x ∉ seen := hax ▸ hseen
        rw [dedupeSessions, if_neg (fun hc => hseen hc.2), if_pos ha,
          List.filter_cons_of_pos (by simp [hax]), ih (a.sessionId :: seen),
          if_pos (hax ▸ List.mem_cons_self a.sessionId seen),
          if_neg hxseen,
          List.filter_cons_of_pos (by simp [hax])]
        rfl
    · have hpa : ((fun s => s.sessionId == x) a) = false := by
        simp [hax]
      by_cases hcond : a.sessionId ≠ "" ∧ a.sessionId ∈ seen
      · rw [dedupeSessions, if_pos hcond, ih seen,
          List.filter_cons_of_neg (by simp [hpa])]
      · by_cases hne : a.sessionId ≠ ""
        · rw [dedupeSessions, if_neg hcond, if_pos hne,
            List.filter_cons_of_neg (by simp [hpa]),
            ih (a.sessionId :: seen),
            List.filter_cons_of_neg (by simp [hpa])]
          by_cases hxseen : x ∈ seen
          · rw [if_pos (List.mem_cons_of_mem _ hxseen), if_pos hxseen]
          · rw [if_neg (fun hc =>
                (List.mem_cons.mp hc).elim (fun h => hax h.symm) hxseen),
              if_neg hxseen]
        · rw [dedupeSessions, if_neg hcond, if_neg hne,
            List.filter_cons_of_neg (by simp [hpa]), ih seen,
            List.filter_cons_of_neg (by simp [hpa])]

/-- Every block built by `build_smartlions_sessions` carries a non-empty
synthetic identifier (it always contains a hyphen). -/
theorem build_sessions_id_nonempty (j : String) (sf : Fields) :
    ∀ s ∈ buildSmartlionsSessions j sf, s.sessionId ≠ "" := by
  have hmk : ∀ k d : String, makeSessionId j k d ≠ "" := by
    intro k d hcontra
    unfold makeSessionId spaceToHyphen at hcontra
    have hlen := congrArg (fun s : String => s.data.length) hcontra
    have hdash : ("-" : String).data.length = 1 := rfl
    have hnil : ("" : String).data.length = 0 := rfl
    simp only [String.data_append, List.length_append, List.length_map,
      hdash, hnil] at hlen
    omega
  intro s hs
  simp only [buildSmartlionsSessions, List.mem_append] at hs
  rcases hs with h | h <;> split at h <;>
    simp only [List.mem_singleton, List.not_mem_nil] at h
  · rw [h]; exact hmk "start" _
  · rw [h]; exact hmk "end" _

/-- Every block grouped into `sessions_by_internal` has a non-empty id. -/
theorem raw_session_ids_nonempty (crs : List SourceRec) (lf : String)
    (srs : List SourceRec) (iid : String) :
    ∀ s ∈ sessionsByInternalRaw crs lf srs iid, s.sessionId ≠ "" := by
  intro s hs
  simp only [sessionsByInternalRaw, List.mem_flatMap] at hs
  obtain ⟨sr, _, hs⟩ := hs
  obtain ⟨j, _, hs⟩ := hs
  exact build_sessions_id_nonempty j sr.fields s hs

/-- C3: after sorting a course's session blocks by
`(date, sessionDescription)` and deduplicating by `sessionId`, the final
`sessions` list has pairwise distinct ids, and for each id exactly the
first block of the sorted order bearing it survives. -/
theorem session_dedupe_unique (crs : List SourceRec) (lf : String)
    (srs : List SourceRec) (iid : String) :
    ((finalSessions crs lf srs iid).map (fun s => s.sessionId)).Nodup ∧
    ∀ x : String, x ≠ "" →
      (finalSessions crs lf srs iid).filter (fun s => s.sessionId == x) =
        ((List.insertionSort sessSortKeyLe
            (sessionsByInternalRaw crs lf srs iid)).filter
          (fun s => s.sessionId == x)).take 1 := by
  have hne : ∀ s ∈ List.insertionSort sessSortKeyLe
      (sessionsByInternalRaw crs lf srs iid), s.sessionId ≠ "" :=
    fun s hs => raw_session_ids_nonempty crs lf srs iid s
      ((List.perm_insertionSort sessSortKeyLe _).mem_iff.mp hs)
  constructor
  · exact (dedupe_sessions_nodup _ [] hne).1
  · intro x hx
    rw [finalSessions, dedupe_sessions_filter _ [] x hx,
      if_neg (List.not_mem_nil x)]

/-- Witness for C3: two session records with the same parent and start
date produce two blocks with the identical id
`"A-start-2024-03-01"`; the final list keeps only the first of the sorted
order. -/
theorem session_dedupe_unique_witness :
    ((finalSessions [⟨"recA", [("internal_id", Value.str "A")]⟩] "Course"
        [⟨"s1", [("Course", Value.list [SValue.str "recA"]),
          ("date_start", Value.str "2024-03-01"),
          ("location_name", Value.str "X")]⟩,
         ⟨"s2", [("Course", Value.list [SValue.str "recA"]),
          ("date_start", Value.str "2024-03-01"),
          ("location_name", Value.str "Y")]⟩]
        "A").map (fun s => s.sessionId)).Nodup ∧
    (finalSessions [⟨"recA", [("internal_id", Value.str "A")]⟩] "Course"
        [⟨"s1", [("Course", Value.list [SValue.str "recA"]),
          ("date_start", Value.str "2024-03-01"),
          ("location_name", Value.str "X")]⟩,
         ⟨"s2", [("Course", Value.list [SValue.str "recA"]),
          ("date_start", Value.str "2024-03-01"),
          ("location_name", Value.str "Y")]⟩]
        "A").filter (fun s => s.sessionId == "A-start-2024-03-01") =
      ((List.insertionSort sessSortKeyLe
          (sessionsByInternalRaw [⟨"recA", [("internal_id", Value.str "A")]⟩]
            "Course"
            [⟨"s1", [("Course", Value.list [SValue.str "recA"]),
              ("date_start", Value.str "2024-03-01"),
              ("location_name", Value.str "X")]⟩,
             ⟨"s2", [("Course", Value.list [SValue.str "recA"]),
              ("date_start", Value.str "2024-03-01"),
              ("location_name", Value.str "Y")]⟩]
            "A")).filter
        (fun s => s.sessionId == "A-start-2024-03-01")).take 1 :=
  ⟨(session_dedupe_unique _ "Course" _ "A").1,
   (session_dedupe_unique _ "Course" _ "A").2 "A-start-2024-03-01"
     (by decide)⟩

/-! ## C5: character facts for the URL model -/

theorem char_toNat_eq (c d : Char) (h : c.toNat = d.toNat) : c = d := by
  apply Char.ext
  apply UInt32.eq_of_toBitVec_eq
  exact BitVec.eq_of_toNat_eq h

theorem char_eq_iff (c d : Char) : c = d ↔ c.toNat = d.toNat :=
  ⟨fun h => h ▸ rfl, char_toNat_eq c d⟩

theorem char_le_iff (c d : Char) : (c ≤ d) ↔ c.toNat ≤ d.toNat := by
  rw [Char.le_def, UInt32.le_def, BitVec.le_def]
  exact Iff.rfl

theorem isAsciiAlpha_toNat (c : Char) :
    isAsciiAlpha c = true ↔
      (97 ≤ c.toNat ∧ c.toNat ≤ 122) ∨ (65 ≤ c.toNat ∧ c.toNat ≤ 90) := by
  unfold isAsciiAlpha
  simp only [Bool.or_eq_true, Bool.and_eq_true, decide_eq_true_eq, char_le_iff]
  exact Iff.rfl

theorem isDigit_toNat (c : Char) :
    c.isDigit = true ↔ 48 ≤ c.toNat ∧ c.toNat ≤ 57 := by
  unfold Char.isDigit
  simp only [Bool.and_eq_true, decide_eq_true_eq, char_le_iff]
  exact Iff.rfl

theorem isSchemeChar_toNat (c : Char) :
    isSchemeChar c = true ↔
      (97 ≤ c.toNat ∧ c.toNat ≤ 122) ∨ (65 ≤ c.toNat ∧ c.toNat ≤ 90) ∨
      (48 ≤ c.toNat ∧ c.toNat ≤ 57) ∨ c.toNat = 43 ∨ c.toNat = 45 ∨
      c.toNat = 46 := by
  unfold isSchemeChar
  simp only [Bool.or_eq_true, isAsciiAlpha_toNat, isDigit_toNat,
    decide_eq_true_eq, char_eq_iff]
  have h43 : ('+').toNat = 43 := rfl
  have h45 : ('-').toNat = 45 := rfl
  have h46 : ('.').toNat = 46 := rfl
  rw [h43, h45, h46]
  tauto

theorem isC0OrSpace_toNat (c : Char) :
    isC0OrSpace c = true ↔ c.toNat ≤ 32 := by
  unfold isC0OrSpace
  simp only [decide_eq_true_eq]
  rw [UInt32.le_def, BitVec.le_def]
  exact Iff.rfl

theorem isUnsafeUrlByte_toNat (c : Char) :
    isUnsafeUrlByte c = true ↔
      c.toNat = 9 ∨ c.toNat = 13 ∨ c.toNat = 10 := by
  unfold isUnsafeUrlByte
  simp only [Bool.or_eq_true, decide_eq_true_eq, char_eq_iff]
  have h9 : ('\t').toNat = 9 := rfl
  have h13 : ('\x0d').toNat = 13 := rfl
  have h10 : ('\n').toNat = 10 := rfl
  rw [h9, h13, h10]
  tauto

theorem isNetlocEnd_toNat (c : Char) :
    isNetlocEnd c = true ↔
      c.toNat = 47 ∨ c.toNat = 63 ∨ c.toNat = 35 := by
  unfold isNetlocEnd
  simp only [Bool.or_eq_true, decide_eq_true_eq, char_eq_iff]
  have h47 : ('/').toNat = 47 := rfl
  have h63 : ('?').toNat = 63 := rfl
  have h35 : ('#').toNat = 35 := rfl
  rw [h47, h63, h35]
  tauto

theorem toLower_toNat (c : Char) :
    (65 ≤ c.toNat ∧ c.toNat ≤ 90 ∧ (Char.toLower c).toNat = c.toNat + 32) ∨
    (¬(65 ≤ c.toNat ∧ c.toNat ≤ 90) ∧ Char.toLower c = c) := by
  unfold Char.toLower
  by_cases h : 65 ≤ c.toNat ∧ c.toNat ≤ 90
  · left
    refine ⟨h.1, h.2, ?_⟩
    rw [if_pos ⟨h.1, h.2⟩]
    have hlt : c.toNat + 32 < 55296 := by omega
    rw [Char.ofNat, dif_pos (Or.inl hlt)]
    show (Char.ofNatAux (c.toNat + 32) (Or.inl hlt)).toNat = c.toNat + 32
    simp [Char.ofNatAux, Char.toNat, UInt32.ofNat', BitVec.ofNatLt, UInt32.toNat]
  · right
    refine ⟨h, ?_⟩
    rw [if_neg (fun hc => h ⟨hc.1, hc.2⟩)]

/-- The key character facts about a scheme character: it is none of the
URL delimiters, is not stripped by preprocessing, and lowercasing keeps it
a scheme character, keeps an ASCII letter a letter, and is idempotent. -/
theorem schemeChar_facts (c : Char) (h : isSchemeChar c = true) :
    c ≠ ':' ∧ c ≠ '?' ∧ c ≠ '#' ∧ c ≠ '/' ∧
    isUnsafeUrlByte c = false ∧ isC0OrSpace c = false := by
  rw [isSchemeChar_toNat] at h
  refine ⟨?_, ?_, ?_, ?_, ?_, ?_⟩
  · intro hc; rw [char_eq_iff] at hc
    have : (':').toNat = 58 := rfl
    omega
  · intro hc; rw [char_eq_iff] at hc
    have : ('?').toNat = 63 := rfl
    omega
  · intro hc; rw [char_eq_iff] at hc
    have : ('#').toNat = 35 := rfl
    omega
  · intro hc; rw [char_eq_iff] at hc
    have : ('/').toNat = 47 := rfl
    omega
  · rw [Bool.eq_false_iff]
    intro hc; rw [isUnsafeUrlByte_toNat] at hc; omega
  · rw [Bool.eq_false_iff]
    intro hc; rw [isC0OrSpace_toNat] at hc; omega

/-- Lowercasing preserves scheme characters and ASCII letters, and is
idempotent on scheme characters. -/
theorem toLower_schemeChar (c : Char) (h : isSchemeChar c = true) :
    isSchemeChar (Char.toLower c) = true ∧
    (isAsciiAlpha c = true → isAsciiAlpha (Char.toLower c) = true) ∧
    Char.toLower (Char.toLower c) = Char.toLower c := by
  rw [isSchemeChar_toNat] at h
  rcases toLower_toNat c with ⟨h1, h2, h3⟩ | ⟨hno, heq⟩
  · have hsch : isSchemeChar (Char.toLower c) = true := by
      rw [isSchemeChar_toNat]; omega
    refine ⟨hsch, fun _ => ?_, ?_⟩
    · rw [isAsciiAlpha_toNat]; omega
    · rcases toLower_toNat (Char.toLower c) with ⟨h1', h2', _⟩ | ⟨_, heq'⟩
      · omega
      · exact heq'
  · refine ⟨by rw [heq, isSchemeChar_toNat]; exact h, fun ha => by rw [heq]; exact ha, by rw [heq, heq]⟩

/-! ## C5: scanning lemmas -/

theorem takeWhile_append_all {p : Char → Bool} (a b : List Char)
    (h : ∀ c ∈ a, p c = true) :
    (a ++ b).takeWhile p = a ++ b.takeWhile p := by
  induction a with
  | nil => simp
  | cons x t ih =>
    have hx : p x = true := h x (List.mem_cons_self x t)
    simp only [List.cons_append, List.takeWhile_cons, hx, if_true]
    rw [ih (fun c hc => h c (List.mem_cons_of_mem x hc))]

theorem dropWhile_append_all {p : Char → Bool} (a b : List Char)
    (h : ∀ c ∈ a, p c = true) :
    (a ++ b).dropWhile p = b.dropWhile p := by
  induction a with
  | nil => simp
  | cons x t ih =>
    have hx : p x = true := h x (List.mem_cons_self x t)
    simp only [List.cons_append, List.dropWhile_cons, hx, if_true]
    exact ih (fun c hc => h c (List.mem_cons_of_mem x hc))

theorem takeWhile_eq_self_all {p : Char → Bool} (a : List Char)
    (h : ∀ c ∈ a, p c = true) : a.takeWhile p = a := by
  have := takeWhile_append_all a [] h
  simpa using this

theorem dropWhile_eq_nil_all {p : Char → Bool} (a : List Char)
    (h : ∀ c ∈ a, p c = true) : a.dropWhile p = [] := by
  have := dropWhile_append_all a [] h
  simpa using this

theorem dropWhile_head_false {p : Char → Bool} (l : List Char) (c : Char)
    (t : List Char) (h : l.dropWhile p = c :: t) : p c = false := by
  induction l with
  | nil => simp at h
  | cons x xs ih =>
    rw [List.dropWhile_cons] at h
    by_cases hx : p x = true
    · rw [if_pos hx] at h
      exact ih h
    · rw [if_neg hx] at h
      injection h with h1 _
      rw [← h1]
      exact Bool.eq_false_iff.mpr hx

/-- `partition`-style decomposition: splitting `a ++ sep :: b` at the
first `sep`, when `a` is `sep`-free, gives `(a, b)`. -/
theorem split_at_first (sep : Char) (a b : List Char)
    (ha : ∀ c ∈ a, c ≠ sep) :
    (a ++ sep :: b).takeWhile (fun c => c ≠ sep) = a ∧
    ((a ++ sep :: b).dropWhile (fun c => c ≠ sep)).tail = b := by
  have hall : ∀ c ∈ a, (fun c => decide (c ≠ sep)) c = true := by
    intro c hc
    simp [ha c hc]
  constructor
  · rw [takeWhile_append_all a _ hall]
    simp [List.takeWhile_cons]
  · rw [dropWhile_append_all a _ hall]
    simp [List.dropWhile_cons]

/-- Splitting a `sep`-free list at the first `sep` gives the list back and
an empty remainder. -/
theorem split_no_sep (sep : Char) (a : List Char) (ha : ∀ c ∈ a, c ≠ sep) :
    a.takeWhile (fun c => c ≠ sep) = a ∧
    (a.dropWhile (fun c => c ≠ sep)).tail = [] := by
  have hall : ∀ c ∈ a, (fun c => decide (c ≠ sep)) c = true := by
    intro c hc
    simp [ha c hc]
  constructor
  · exact takeWhile_eq_self_all a hall
  · rw [dropWhile_eq_nil_all a hall]
    rfl

/-! ## C5: preprocessing lemmas -/

theorem preprocess_eq_self (l : List Char)
    (h1 : ∀ c ∈ l, isUnsafeUrlByte c = false)
    (h2 : ∀ c t, l = c :: t → isC0OrSpace c = false) :
    preprocessUrl l = l := by
  unfold preprocessUrl
  have hd : l.dropWhile isC0OrSpace = l := by
    rcases hl : l with _ | ⟨c, t⟩
    · rfl
    · rw [List.dropWhile_cons, if_neg (by simp [h2 c t hl])]
  rw [hd, List.filter_eq_self.mpr (fun c hc => by simp [h1 c hc])]

theorem preprocess_unsafe_free (l : List Char) :
    ∀ c ∈ preprocessUrl l, isUnsafeUrlByte c = false := by
  intro c hc
  unfold preprocessUrl at hc
  have := List.of_mem_filter hc
  simpa using this

theorem unsafe_of_c0 (c : Char) (h : isC0OrSpace c = false) :
    isUnsafeUrlByte c = false := by
  rw [Bool.eq_false_iff] at h ⊢
  intro hu
  apply h
  rw [isUnsafeUrlByte_toNat] at hu
  rw [isC0OrSpace_toNat]
  omega

theorem preprocess_head_not_space (l : List Char) (c : Char) (t : List Char)
    (h : preprocessUrl l = c :: t) : isC0OrSpace c = false := by
  unfold preprocessUrl at h
  rcases hd : l.dropWhile isC0OrSpace with _ | ⟨d, rest⟩
  · rw [hd] at h
    simp at h
  · have hdC0 : isC0OrSpace d = false := dropWhile_head_false l d rest hd
    rw [hd, List.filter_cons_of_pos (by simp [unsafe_of_c0 d hdC0])] at h
    injection h with h1 _
    rw [← h1]
    exact hdC0

/-! ## C5: scheme and netloc split lemmas -/

theorem schemeSplit_valid (p0 : Char) (ps t : List Char)
    (hall : ∀ c ∈ p0 :: ps, isSchemeChar c = true)
    (halpha : isAsciiAlpha p0 = true) :
    schemeSplit ((p0 :: ps) ++ ':' :: t) = (lowerL (p0 :: ps), t) := by
  have hne : ∀ c ∈ p0 :: ps, c ≠ ':' :=
    fun c hc => (schemeChar_facts c (hall c hc)).1
  have hall' : ∀ c ∈ p0 :: ps, (fun c => decide (c ≠ ':')) c = true :=
    fun c hc => by simp [hne c hc]
  have htw : ((p0 :: ps) ++ ':' :: t).takeWhile (fun c => c ≠ ':') = p0 :: ps :=
    (split_at_first ':' _ t hne).1
  have hdw : ((p0 :: ps) ++ ':' :: t).dropWhile (fun c => c ≠ ':') = ':' :: t := by
    rw [dropWhile_append_all _ _ hall']
    simp [List.dropWhile_cons]
  have hcond : (isAsciiAlpha p0 && (p0 :: ps).all isSchemeChar) = true := by
    rw [Bool.and_eq_true]
    exact ⟨halpha, List.all_eq_true.mpr hall⟩
  unfold schemeSplit
  rw [htw, hdw]
  show (if (isAsciiAlpha p0 && (p0 :: ps).all isSchemeChar) = true
        then (lowerL (p0 :: ps), t) else ([], (p0 :: ps) ++ ':' :: t)) =
      (lowerL (p0 :: ps), t)
  rw [if_pos hcond]

theorem schemeSplit_cases (url : List Char) :
    (schemeSplit url = ([], url) ∧
      (∀ p0 ps t, url = (p0 :: ps) ++ ':' :: t → (∀ c ∈ p0 :: ps, c ≠ ':') →
        ¬(isAsciiAlpha p0 = true ∧ ∀ c ∈ p0 :: ps, isSchemeChar c = true))) ∨
    (∃ p0 ps t, url = (p0 :: ps) ++ ':' :: t ∧
      (∀ c ∈ p0 :: ps, isSchemeChar c = true) ∧ isAsciiAlpha p0 = true ∧
      schemeSplit url = (lowerL (p0 :: ps), t)) := by
  unfold schemeSplit
  split
  · next rest p0 ps heq1 heq2 =>
    have hurl : url = (p0 :: ps) ++ ':' :: rest := by
      conv_lhs => rw [← List.takeWhile_append_dropWhile
        (p := fun c => decide (c ≠ ':')) (l := url)]
      rw [heq1, heq2]
    by_cases hcond : (isAsciiAlpha p0 && (p0 :: ps).all isSchemeChar) = true
    · right
      refine ⟨p0, ps, rest, hurl, ?_, ?_, ?_⟩
      · exact fun c hc =>
          List.all_eq_true.mp (Bool.and_eq_true_iff.mp hcond).2 c hc
      · exact (Bool.and_eq_true_iff.mp hcond).1
      · rw [if_pos hcond]
    · left
      rw [if_neg hcond]
      refine ⟨rfl, ?_⟩
      intro q0 qs t hdec hqne hvalid
      have htw : url.takeWhile (fun c => c ≠ ':') = q0 :: qs := by
        rw [hdec]
        exact (split_at_first ':' _ t hqne).1
      rw [heq2] at htw
      injection htw with e1 e2
      apply hcond
      rw [e1, e2]
      simp only [Bool.and_eq_true]
      exact ⟨hvalid.1, List.all_eq_true.mpr hvalid.2⟩
  · next h =>
    left
    refine ⟨rfl, ?_⟩
    intro p0 ps t hdec hpne _
    have htw : url.takeWhile (fun c => c ≠ ':') = p0 :: ps := by
      rw [hdec]
      exact (split_at_first ':' _ t hpne).1
    have hdw : url.dropWhile (fun c => c ≠ ':') = ':' :: t := by
      rw [hdec]
      have hall' : ∀ c ∈ p0 :: ps, (fun c => decide (c ≠ ':')) c = true :=
        fun c hc => by simp [hpne c hc]
      rw [dropWhile_append_all _ _ hall']
      simp [List.dropWhile_cons]
    exact h t p0 ps hdw htw

theorem netlocSplit_cons (netloc rest : List Char)
    (hn : ∀ c ∈ netloc, isNetlocEnd c = false)
    (hr : rest = [] ∨ ∃ c t, rest = c :: t ∧ isNetlocEnd c = true) :
    netlocSplit ('/' :: '/' :: (netloc ++ rest)) = (netloc, rest) := by
  have hall : ∀ c ∈ netloc, (fun c => !isNetlocEnd c) c = true :=
    fun c hc => by simp [hn c hc]
  unfold netlocSplit
  show (List.takeWhile (fun c => !isNetlocEnd c) (netloc ++ rest),
        List.dropWhile (fun c => !isNetlocEnd c) (netloc ++ rest)) =
      (netloc, rest)
  rw [takeWhile_append_all _ _ hall, dropWhile_append_all _ _ hall]
  rcases hr with rfl | ⟨c, t, rfl, hc⟩
  · simp
  · simp [List.takeWhile_cons, List.dropWhile_cons, hc]

theorem netlocSplit_no (url : List Char) (h : url.take 2 ≠ ['/', '/']) :
    netlocSplit url = ([], url) := by
  unfold netlocSplit
  split
  · next rest =>
    exact absurd rfl h
  · rfl

/-! ## C5: params split and rejoin -/

theorem contains_iff_mem (l : List Char) (c : Char) :
    l.contains c = true ↔ c ∈ l := by
  simp

/-- Decomposition at the first occurrence of `sep`. -/
theorem split_first_mem (sep : Char) (l : List Char) (h : sep ∈ l) :
    l = l.takeWhile (fun c => c ≠ sep) ++
      sep :: ((l.dropWhile (fun c => c ≠ sep)).tail) ∧
    ∀ c ∈ l.takeWhile (fun c => c ≠ sep), c ≠ sep := by
  rcases hd : l.dropWhile (fun c => c ≠ sep) with _ | ⟨c, t⟩
  · exfalso
    have hall := List.dropWhile_eq_nil_iff.mp hd
    have := hall sep h
    simp at this
  · have hc : c = sep := by
      have := dropWhile_head_false l c t hd
      simpa using this
    rw [hc] at hd
    constructor
    · conv_lhs => rw [← List.takeWhile_append_dropWhile
        (p := fun x => decide (x ≠ sep)) (l := l)]
      rw [hd]
      rfl
    · intro x hx
      have := List.mem_takeWhile_imp hx
      simpa using this

theorem upTo_after_append (p : List Char) :
    upToLastSlash p ++ afterLastSlash p = p := by
  unfold upToLastSlash afterLastSlash
  rw [← List.reverse_append, List.takeWhile_append_dropWhile,
    List.reverse_reverse]

theorem afterLastSlash_no_slash (p : List Char) :
    ∀ c ∈ afterLastSlash p, c ≠ '/' := by
  intro c hc
  unfold afterLastSlash at hc
  rw [List.mem_reverse] at hc
  have := List.mem_takeWhile_imp hc
  simpa using this

theorem upToLastSlash_shape (p : List Char) :
    upToLastSlash p = [] ∨ ∃ a, upToLastSlash p = a ++ ['/'] := by
  unfold upToLastSlash
  rcases hd : p.reverse.dropWhile (fun c => c ≠ '/') with _ | ⟨c, t⟩
  · left; rfl
  · right
    have hc : c = '/' := by
      have := dropWhile_head_false p.reverse c t hd
      simpa using this
    subst hc
    exact ⟨t.reverse, by simp⟩

theorem upToLastSlash_ne_nil (p : List Char) (h : '/' ∈ p) :
    upToLastSlash p ≠ [] := by
  unfold upToLastSlash
  intro hcontra
  rw [List.reverse_eq_nil_iff] at hcontra
  have hall := List.dropWhile_eq_nil_iff.mp hcontra
  have := hall '/' (List.mem_reverse.mpr h)
  simp at this

/-- Splitting off the segment after the last slash of `A ++ B`, when `A`
is empty or ends with a slash and `B` is slash-free. -/
theorem afterLast_append (A B : List Char)
    (hA : A = [] ∨ ∃ a, A = a ++ ['/'])
    (hB : ∀ c ∈ B, c ≠ '/') :
    afterLastSlash (A ++ B) = B ∧ upToLastSlash (A ++ B) = A := by
  have hBall : ∀ c ∈ B.reverse, (fun c => decide (c ≠ '/')) c = true := by
    intro c hc
    simp [hB c (List.mem_reverse.mp hc)]
  unfold afterLastSlash upToLastSlash
  rw [List.reverse_append]
  rcases hA with rfl | ⟨a, rfl⟩
  · simp only [List.reverse_nil, List.append_nil]
    constructor
    · rw [takeWhile_eq_self_all _ hBall, List.reverse_reverse]
    · rw [dropWhile_eq_nil_all _ hBall]
      rfl
  · rw [List.reverse_append]
    simp only [List.reverse_cons, List.reverse_nil, List.nil_append,
      List.singleton_append]
    constructor
    · rw [takeWhile_append_all _ _ hBall]
      simp only [List.takeWhile_cons]
      rw [if_neg (by simp)]
      simp
    · rw [dropWhile_append_all _ _ hBall]
      simp only [List.dropWhile_cons]
      rw [if_neg (by simp)]
      simp

/-- Round trip of the params split: re-splitting the rejoined path gives
the same `(path, params)` pair, and the rejoined path is the raw path or
the raw path less a trailing `;`. -/
theorem splitParams_spec (rp : List Char) :
    splitParamsM (rejoinParams (splitParamsM rp)) = splitParamsM rp ∧
    (rejoinParams (splitParamsM rp) = rp ∨
      rejoinParams (splitParamsM rp) ++ [';'] = rp) := by
  by_cases hsemi : rp.contains ';' = true
  · by_cases hslash : rp.contains '/' = true
    · by_cases hsufsemi : (afterLastSlash rp).contains ';' = true
      · -- split inside the segment after the last slash
        have hsem : ';' ∈ afterLastSlash rp := (contains_iff_mem _ _).mp hsufsemi
        obtain ⟨hdec, htwfree⟩ := split_first_mem ';' (afterLastSlash rp) hsem
        have hpp : splitParamsM rp =
            (upToLastSlash rp ++
              (afterLastSlash rp).takeWhile (fun c => c ≠ ';'),
             ((afterLastSlash rp).dropWhile (fun c => c ≠ ';')).tail) := by
          unfold splitParamsM
          rw [if_pos hsemi, if_pos hslash, if_pos hsufsemi]
        by_cases htl : ((afterLastSlash rp).dropWhile (fun c => c ≠ ';')).tail = []
        · -- empty params: the raw path had a trailing semicolon
          have hP : rejoinParams (splitParamsM rp) =
              upToLastSlash rp ++
                (afterLastSlash rp).takeWhile (fun c => c ≠ ';') := by
            rw [hpp]
            unfold rejoinParams
            rw [if_neg (fun hc => hc htl)]
          have hrp : rejoinParams (splitParamsM rp) ++ [';'] = rp := by
            rw [hP, List.append_assoc]
            conv_rhs => rw [← upTo_after_append rp]
            congr 1
            conv_rhs => rw [hdec, htl]
          refine ⟨?_, Or.inr hrp⟩
          -- re-split of the rejoined path: no semicolon after its last slash
          have hupne : upToLastSlash rp ≠ [] :=
            upToLastSlash_ne_nil rp ((contains_iff_mem _ _).mp hslash)
          have hupshape : ∃ a, upToLastSlash rp = a ++ ['/'] := by
            rcases upToLastSlash_shape rp with h | h
            · exact absurd h hupne
            · exact h
          have htwfree' : ∀ c ∈ (afterLastSlash rp).takeWhile
              (fun c => c ≠ ';'), c ≠ '/' := by
            intro c hc
            refine afterLastSlash_no_slash rp c ?_
            have hsub := List.takeWhile_sublist
              (p := fun c => decide (c ≠ ';')) (l := afterLastSlash rp)
            exact hsub.mem hc
          obtain ⟨hafter, hupto⟩ :=
            afterLast_append (upToLastSlash rp)
              ((afterLastSlash rp).takeWhile (fun c => c ≠ ';'))
              (Or.inr hupshape) htwfree'
          rw [hP, hpp]
          unfold splitParamsM
          by_cases hPsemi : ((upToLastSlash rp ++
              (afterLastSlash rp).takeWhile (fun c => c ≠ ';')).contains ';') = true
          · rw [if_pos hPsemi, if_pos (by
              rw [contains_iff_mem]
              obtain ⟨a, ha⟩ := hupshape
              rw [ha]
              exact List.mem_append.mpr (Or.inl (List.mem_append.mpr
                (Or.inr (List.mem_singleton.mpr rfl))))),
              if_neg (by
                rw [hafter]
                intro hc
                have h1 := (contains_iff_mem _ _).mp hc
                have h2 := List.mem_takeWhile_imp h1
                simp at h2)]
            rw [htl]
          · rw [if_neg hPsemi]
            rw [htl]
        · -- non-empty params: the rejoined path is the raw path itself
          have hP : rejoinParams (splitParamsM rp) = rp := by
            rw [hpp]
            unfold rejoinParams
            rw [if_pos htl]
            show upToLastSlash rp ++ _ ++ ';' :: _ = rp
            rw [List.append_assoc]
            conv_rhs => rw [← upTo_after_append rp]
            congr 1
            conv_rhs => rw [hdec]
          rw [hP]
          exact ⟨rfl, Or.inl rfl⟩
      · -- no semicolon after the last slash: no params
        have hpp : splitParamsM rp = (rp, []) := by
          unfold splitParamsM
          rw [if_pos hsemi, if_pos hslash, if_neg hsufsemi]
        have hP : rejoinParams (splitParamsM rp) = rp := by
          rw [hpp]; rfl
        rw [hP]
        exact ⟨rfl, Or.inl rfl⟩
    · -- no slash: split at the first semicolon of the whole path
      have hsem : ';' ∈ rp := (contains_iff_mem _ _).mp hsemi
      obtain ⟨hdec, htwfree⟩ := split_first_mem ';' rp hsem
      have hpp : splitParamsM rp =
          (rp.takeWhile (fun c => c ≠ ';'),
           (rp.dropWhile (fun c => c ≠ ';')).tail) := by
        unfold splitParamsM
        rw [if_pos hsemi, if_neg hslash]
      by_cases htl : (rp.dropWhile (fun c => c ≠ ';')).tail = []
      · have hP : rejoinParams (splitParamsM rp) =
            rp.takeWhile (fun c => c ≠ ';') := by
          rw [hpp]
          unfold rejoinParams
          rw [if_neg (fun hc => hc htl)]
        have hrp : rejoinParams (splitParamsM rp) ++ [';'] = rp := by
          rw [hP]
          conv_rhs => rw [hdec, htl]
        refine ⟨?_, Or.inr hrp⟩
        rw [hP, hpp]
        unfold splitParamsM
        rw [if_neg (by
          intro hc
          have h1 := (contains_iff_mem _ _).mp hc
          have h2 := List.mem_takeWhile_imp h1
          simp at h2)]
        rw [htl]
      · have hP : rejoinParams (splitParamsM rp) = rp := by
          rw [hpp]
          unfold rejoinParams
          rw [if_pos htl]
          show rp.takeWhile (fun c => c ≠ ';') ++ ';' :: _ = rp
          conv_rhs => rw [hdec]
        rw [hP]
        exact ⟨rfl, Or.inl rfl⟩
  · -- no semicolon at all
    have hpp : splitParamsM rp = (rp, []) := by
      unfold splitParamsM
      rw [if_neg hsemi]
    have hP : rejoinParams (splitParamsM rp) = rp := by
      rw [hpp]; rfl
    rw [hP]
    exact ⟨rfl, Or.inl rfl⟩

/-! ## C5: more split lemmas -/

theorem takeWhile_cons_inv {p : Char → Bool} (l : List Char) (c : Char)
    (t : List Char) (h : l.takeWhile p = c :: t) :
    ∃ t2, l = c :: t2 ∧ p c = true := by
  cases l with
  | nil => simp at h
  | cons a as =>
    rw [List.takeWhile_cons] at h
    by_cases ha : p a = true
    · rw [if_pos ha] at h
      injection h with h1 _
      exact ⟨as, by rw [h1], by rw [← h1]; exact ha⟩
    · rw [if_neg ha] at h
      simp at h

theorem lowerL_schemeChars (pre : List Char)
    (hall : ∀ c ∈ pre, isSchemeChar c = true) :
    (∀ c ∈ lowerL pre, isSchemeChar c = true) ∧
    lowerL (lowerL pre) = lowerL pre := by
  constructor
  · intro c hc
    obtain ⟨d, hd, rfl⟩ := List.mem_map.mp hc
    exact (toLower_schemeChar d (hall d hd)).1
  · unfold lowerL
    rw [List.map_map]
    apply List.map_congr_left
    intro d hd
    exact (toLower_schemeChar d (hall d hd)).2.2

theorem schemeSplit_none_of (url : List Char)
    (h : ∀ p0 ps t, url = (p0 :: ps) ++ ':' :: t → (∀ c ∈ p0 :: ps, c ≠ ':') →
      ¬(isAsciiAlpha p0 = true ∧ ∀ c ∈ p0 :: ps, isSchemeChar c = true)) :
    schemeSplit url = ([], url) := by
  rcases schemeSplit_cases url with ⟨heq, _⟩ | ⟨p0, ps, t, hdec, hall, halpha, _⟩
  · exact heq
  · exfalso
    exact h p0 ps t hdec
      (fun c hc => (schemeChar_facts c (hall c hc)).1) ⟨halpha, hall⟩

theorem schemeSplit_head_not_alpha (url : List Char)
    (h : ∀ c t, url = c :: t → isAsciiAlpha c = false) :
    schemeSplit url = ([], url) := by
  apply schemeSplit_none_of
  intro p0 ps t hdec _ hv
  have : isAsciiAlpha p0 = false := h p0 (ps ++ ':' :: t) (by simpa using hdec)
  rw [hv.1] at this
  exact absurd this (by simp)

/-! ## C5: the urlsplit/urlunsplit round trip -/

/-- The character-set conditions the installed query string must satisfy;
both partners' fixed UTM constants satisfy them. -/
def goodQueryChars (utm : List Char) : Prop :=
  utm ≠ [] ∧ ∀ c ∈ utm, c ≠ '?' ∧ c ≠ '#' ∧ isUnsafeUrlByte c = false ∧
    isC0OrSpace c = false

theorem utmJobat_good : goodQueryChars utmJobat := by
  constructor
  · decide
  · decide

theorem utmSmartlions_good : goodQueryChars utmSmartlions := by
  constructor
  · decide
  · decide

theorem fragAppendSwap (cond : Prop) [Decidable cond] (x f : List Char) :
    (if cond then x ++ '#' :: f else x) = x ++ (if cond then '#' :: f else []) := by
  by_cases h : cond <;> simp [h]

theorem alpha_not_c0 (c : Char) (h : isAsciiAlpha c = true) :
    isC0OrSpace c = false := by
  rw [isAsciiAlpha_toNat] at h
  rw [Bool.eq_false_iff]
  intro hc
  rw [isC0OrSpace_toNat] at hc
  omega

theorem take2_shape (P : List Char) (h : P.take 2 = ['/', '/']) :
    ∃ t, P = '/' :: '/' :: t := by
  refine ⟨P.drop 2, ?_⟩
  conv_lhs => rw [← List.take_append_drop 2 P]
  rw [h]
  rfl

/-- Re-parsing the output of `urlunsplit`: under the invariants satisfied
by every `urlsplit` result (and a well-behaved replacement query string),
`urlsplit` recovers exactly the components that were assembled. -/
theorem urlunsplit_reparse (scheme netloc P utm frag : List Char)
    (hS : scheme = [] ∨ (∃ p0 ps, scheme = p0 :: ps ∧ isAsciiAlpha p0 = true ∧
      (∀ c ∈ scheme, isSchemeChar c = true) ∧ lowerL scheme = scheme))
    (hN : ∀ c ∈ netloc, isNetlocEnd c = false)
    (hPq : ∀ c ∈ P, c ≠ '?' ∧ c ≠ '#')
    (hshape : netloc ≠ [] → P = [] ∨ ∃ t, P = '/' :: t)
    (hnos : scheme = [] → ∀ q0 qs t2, P = (q0 :: qs) ++ ':' :: t2 →
      (∀ c ∈ q0 :: qs, c ≠ ':') →
      ¬(isAsciiAlpha q0 = true ∧ ∀ c ∈ q0 :: qs, isSchemeChar c = true))
    (hq : goodQueryChars utm)
    (hUn : ∀ c ∈ netloc, isUnsafeUrlByte c = false)
    (hUP : ∀ c ∈ P, isUnsafeUrlByte c = false)
    (hUf : ∀ c ∈ frag, isUnsafeUrlByte c = false)
    (hhead : scheme = [] → netloc = [] → P.take 2 ≠ ['/', '/'] →
      ∀ c t, P = c :: t → isC0OrSpace c = false) :
    urlsplitM (urlunsplitM scheme netloc P utm frag) =
      ⟨scheme, netloc, P, utm, frag⟩ := by
  obtain ⟨hq1, hq2⟩ := hq
  -- the trailing `?query#fragment` part shared by both branches
  have hq2' : ∀ c ∈ utm, c ≠ '#' := fun c hc => (hq2 c hc).2.1
  have hq2q : ∀ c ∈ utm, c ≠ '?' := fun c hc => (hq2 c hc).1
  have hfragTail : ∀ (x : List Char),
      (if frag ≠ [] then (x ++ '?' :: utm) ++ '#' :: frag else x ++ '?' :: utm) =
        x ++ '?' :: (utm ++ (if frag ≠ [] then '#' :: frag else [])) := by
    intro x
    by_cases hf : frag ≠ []
    · rw [if_pos hf, if_pos hf]
      simp
    · rw [if_neg hf, if_neg hf]
      simp
  -- the tail after `?` reparses to `(P, utm, frag)` by the three scans
  have hscans : ∀ (B : List Char),
      (∀ c ∈ B, c ≠ '?' ∧ c ≠ '#') →
      fragSplit (B ++ '?' :: (utm ++ (if frag ≠ [] then '#' :: frag else []))) =
        (B ++ '?' :: utm, frag) ∧
      querySplit (B ++ '?' :: utm) = (B, utm) := by
    intro B hB
    constructor
    · by_cases hf : frag ≠ []
      · rw [if_pos hf]
        have hfree : ∀ c ∈ B ++ '?' :: utm, c ≠ '#' := by
          intro c hc
          rcases List.mem_append.mp hc with h | h
          · exact (hB c h).2
          · rcases List.mem_cons.mp h with rfl | h
            · decide
            · exact hq2' c h
        have := split_at_first '#' (B ++ '?' :: utm) frag hfree
        unfold fragSplit
        have hassoc : B ++ '?' :: (utm ++ '#' :: frag) =
            (B ++ '?' :: utm) ++ '#' :: frag := by simp
        rw [hassoc, this.1]
        rw [Prod.mk.injEq]
        exact ⟨rfl, this.2⟩
      · rw [if_neg hf]
        push_neg at hf
        rw [hf]
        have hfree : ∀ c ∈ B ++ '?' :: utm, c ≠ '#' := by
          intro c hc
          rcases List.mem_append.mp hc with h | h
          · exact (hB c h).2
          · rcases List.mem_cons.mp h with rfl | h
            · decide
            · exact hq2' c h
        have := split_no_sep '#' (B ++ '?' :: utm) hfree
        unfold fragSplit
        simp only [List.append_nil]
        rw [Prod.mk.injEq]
        exact ⟨this.1, this.2⟩
    · have hfree : ∀ c ∈ B, c ≠ '?' := fun c hc => (hB c hc).1
      have := split_at_first '?' B utm hfree
      unfold querySplit
      rw [Prod.mk.injEq]
      exact ⟨this.1, this.2⟩
  by_cases hcond : netloc ≠ [] ∨ P.take 2 = ['/', '/']
  · -- the `//` reconstruction branch
    have hPfix : (if P ≠ [] ∧ P.take 1 ≠ ['/'] then '/' :: P else P) = P := by
      rcases hcond with hn | h2
      · rcases hshape hn with rfl | ⟨t, rfl⟩
        · rw [if_neg (fun hc => hc.1 rfl)]
        · rw [if_neg (fun hc => hc.2 rfl)]
      · obtain ⟨t, rfl⟩ := take2_shape P h2
        rw [if_neg (fun hc => hc.2 rfl)]
    have hPheadEnd : P ++ '?' :: (utm ++ (if frag ≠ [] then '#' :: frag else [])) = [] ∨
        ∃ c t, P ++ '?' :: (utm ++ (if frag ≠ [] then '#' :: frag else [])) = c :: t ∧
          isNetlocEnd c = true := by
      right
      rcases hcond with hn | h2
      · rcases hshape hn with rfl | ⟨t, rfl⟩
        · exact ⟨'?', _, rfl, by decide⟩
        · exact ⟨'/', _, rfl, by decide⟩
      · obtain ⟨t, rfl⟩ := take2_shape P h2
        exact ⟨'/', _, rfl, by decide⟩
    -- the assembled output
    have hout : urlunsplitM scheme netloc P utm frag =
        (if scheme ≠ [] then scheme ++ ':' ::
            ('/' :: '/' :: (netloc ++ (P ++ '?' :: (utm ++
              (if frag ≠ [] then '#' :: frag else []))))) else
          '/' :: '/' :: (netloc ++ (P ++ '?' :: (utm ++
            (if frag ≠ [] then '#' :: frag else []))))) := by
      simp only [urlunsplitM]
      rw [if_pos hcond, hPfix, if_pos hq1]
      by_cases hs : scheme ≠ [] <;> by_cases hf : frag ≠ [] <;>
        simp [hs, hf, List.append_assoc]
    rw [hout]
    have hTailU : ∀ c ∈ (if frag ≠ [] then '#' :: frag else []),
        isUnsafeUrlByte c = false := by
      by_cases hf : frag ≠ []
      · rw [if_pos hf]
        intro c hc
        rcases List.mem_cons.mp hc with rfl | hc
        · decide
        · exact hUf c hc
      · rw [if_neg hf]
        intro c hc
        simp at hc
    have hInnerU : ∀ c ∈ '/' :: '/' :: (netloc ++ (P ++ '?' :: (utm ++
        (if frag ≠ [] then '#' :: frag else [])))), isUnsafeUrlByte c = false := by
      intro c hc
      rcases List.mem_cons.mp hc with rfl | hc
      · decide
      rcases List.mem_cons.mp hc with rfl | hc
      · decide
      rcases List.mem_append.mp hc with hc | hc
      · exact hUn c hc
      rcases List.mem_append.mp hc with hc | hc
      · exact hUP c hc
      rcases List.mem_cons.mp hc with rfl | hc
      · decide
      rcases List.mem_append.mp hc with hc | hc
      · exact (hq2 c hc).2.2.1
      · exact hTailU c hc
    have hsplit2 : netlocSplit ('/' :: '/' :: (netloc ++ (P ++ '?' :: (utm ++
        (if frag ≠ [] then '#' :: frag else []))))) =
        (netloc, P ++ '?' :: (utm ++ (if frag ≠ [] then '#' :: frag else []))) :=
      netlocSplit_cons netloc _ hN hPheadEnd
    obtain ⟨hfragS, hqS⟩ := hscans P hPq
    by_cases hs : scheme ≠ []
    · rw [if_pos hs]
      rcases hS with rfl | ⟨p0, ps, hsch, halpha, hall, hlow⟩
      · exact absurd rfl hs
      have hpre : preprocessUrl (scheme ++ ':' :: ('/' :: '/' :: (netloc ++
          (P ++ '?' :: (utm ++ (if frag ≠ [] then '#' :: frag else [])))))) =
          scheme ++ ':' :: ('/' :: '/' :: (netloc ++ (P ++ '?' :: (utm ++
            (if frag ≠ [] then '#' :: frag else []))))) := by
        apply preprocess_eq_self
        · intro c hc
          rcases List.mem_append.mp hc with hc | hc
          · exact (schemeChar_facts c (hall c hc)).2.2.2.2.1
          rcases List.mem_cons.mp hc with rfl | hc
          · decide
          · exact hInnerU c hc
        · intro c t hct
          rw [hsch, List.cons_append] at hct
          injection hct with h1 _
          rw [← h1]
          exact alpha_not_c0 p0 halpha
      have hsplit1 : schemeSplit (scheme ++ ':' :: ('/' :: '/' :: (netloc ++
          (P ++ '?' :: (utm ++ (if frag ≠ [] then '#' :: frag else [])))))) =
          (scheme, '/' :: '/' :: (netloc ++ (P ++ '?' :: (utm ++
            (if frag ≠ [] then '#' :: frag else []))))) := by
        conv_lhs => rw [hsch]
        rw [schemeSplit_valid p0 ps _ (by rw [← hsch]; exact hall) halpha,
          ← hsch, hlow]
      simp only [urlsplitM, hpre, hsplit1, hsplit2, hfragS, hqS]
    · rw [if_neg hs]
      push_neg at hs
      have hpre : preprocessUrl ('/' :: '/' :: (netloc ++ (P ++ '?' :: (utm ++
          (if frag ≠ [] then '#' :: frag else []))))) =
          '/' :: '/' :: (netloc ++ (P ++ '?' :: (utm ++
            (if frag ≠ [] then '#' :: frag else [])))) := by
        apply preprocess_eq_self
        · exact hInnerU
        · intro c t hct
          injection hct with h1 _
          rw [← h1]
          decide
      have hsplit1 : schemeSplit ('/' :: '/' :: (netloc ++ (P ++ '?' :: (utm ++
          (if frag ≠ [] then '#' :: frag else []))))) =
          ([], '/' :: '/' :: (netloc ++ (P ++ '?' :: (utm ++
            (if frag ≠ [] then '#' :: frag else []))))) := by
        apply schemeSplit_head_not_alpha
        intro c t hct
        injection hct with h1 _
        rw [← h1]
        decide
      simp only [urlsplitM, hpre, hsplit1, hsplit2, hfragS, hqS, hs]
  · -- the plain branch: no netloc reconstruction
    push_neg at hcond
    obtain ⟨hnet, hP2⟩ := hcond
    have hTailU : ∀ c ∈ (if frag ≠ [] then '#' :: frag else []),
        isUnsafeUrlByte c = false := by
      by_cases hf : frag ≠ []
      · rw [if_pos hf]
        intro c hc
        rcases List.mem_cons.mp hc with rfl | hc
        · decide
        · exact hUf c hc
      · rw [if_neg hf]
        intro c hc
        simp at hc
    have hInnerU : ∀ c ∈ P ++ '?' :: (utm ++
        (if frag ≠ [] then '#' :: frag else [])), isUnsafeUrlByte c = false := by
      intro c hc
      rcases List.mem_append.mp hc with hc | hc
      · exact hUP c hc
      rcases List.mem_cons.mp hc with rfl | hc
      · decide
      rcases List.mem_append.mp hc with hc | hc
      · exact (hq2 c hc).2.2.1
      · exact hTailU c hc
    have hout : urlunsplitM scheme netloc P utm frag =
        (if scheme ≠ [] then scheme ++ ':' :: (P ++ '?' :: (utm ++
            (if frag ≠ [] then '#' :: frag else []))) else
          P ++ '?' :: (utm ++ (if frag ≠ [] then '#' :: frag else []))) := by
      simp only [urlunsplitM]
      rw [if_neg (show ¬(netloc ≠ [] ∨ P.take 2 = ['/', '/']) from
        fun hc => hc.elim (fun h => h hnet) (fun h => hP2 h)), if_pos hq1]
      by_cases hs : scheme ≠ [] <;> by_cases hf : frag ≠ [] <;>
        simp [hs, hf, List.append_assoc]
    rw [hout]
    have htake2 : (P ++ '?' :: (utm ++
        (if frag ≠ [] then '#' :: frag else []))).take 2 ≠ ['/', '/'] := by
      rcases P with _ | ⟨c1, _ | ⟨c2, t⟩⟩
      · intro hcontra
        simp only [List.nil_append, List.take_cons] at hcontra
        injection hcontra with h1 _
        exact absurd h1 (by decide)
      · intro hcontra
        simp only [List.cons_append, List.nil_append, List.take_cons] at hcontra
        injection hcontra with _ h2
        injection h2 with h3 _
        exact absurd h3 (by decide)
      · intro hcontra
        simp only [List.cons_append, List.take_cons] at hcontra
        injection hcontra with h1 h2
        injection h2 with h3 _
        apply hP2
        rw [h1, h3]
        rfl
    have hsplit2 : netlocSplit (P ++ '?' :: (utm ++
        (if frag ≠ [] then '#' :: frag else []))) =
        ([], P ++ '?' :: (utm ++ (if frag ≠ [] then '#' :: frag else []))) :=
      netlocSplit_no _ htake2
    obtain ⟨hfragS, hqS⟩ := hscans P hPq
    by_cases hs : scheme ≠ []
    · rw [if_pos hs]
      rcases hS with rfl | ⟨p0, ps, hsch, halpha, hall, hlow⟩
      · exact absurd rfl hs
      have hpre : preprocessUrl (scheme ++ ':' :: (P ++ '?' :: (utm ++
          (if frag ≠ [] then '#' :: frag else [])))) =
          scheme ++ ':' :: (P ++ '?' :: (utm ++
            (if frag ≠ [] then '#' :: frag else []))) := by
        apply preprocess_eq_self
        · intro c hc
          rcases List.mem_append.mp hc with hc | hc
          · exact (schemeChar_facts c (hall c hc)).2.2.2.2.1
          rcases List.mem_cons.mp hc with rfl | hc
          · decide
          · exact hInnerU c hc
        · intro c t hct
          rw [hsch, List.cons_append] at hct
          injection hct with h1 _
          rw [← h1]
          exact alpha_not_c0 p0 halpha
      have hsplit1 : schemeSplit (scheme ++ ':' :: (P ++ '?' :: (utm ++
          (if frag ≠ [] then '#' :: frag else [])))) =
          (scheme, P ++ '?' :: (utm ++
            (if frag ≠ [] then '#' :: frag else []))) := by
        conv_lhs => rw [hsch]
        rw [schemeSplit_valid p0 ps _ (by rw [← hsch]; exact hall) halpha,
          ← hsch, hlow]
      simp only [urlsplitM, hpre, hsplit1, hsplit2, hfragS, hqS, hnet]
    · rw [if_neg hs]
      push_neg at hs
      have hpre : preprocessUrl (P ++ '?' :: (utm ++
          (if frag ≠ [] then '#' :: frag else []))) =
          P ++ '?' :: (utm ++ (if frag ≠ [] then '#' :: frag else [])) := by
        apply preprocess_eq_self
        · exact hInnerU
        · intro c t hct
          rcases hPshape : P with _ | ⟨c1, t1⟩
          · rw [hPshape, List.nil_append] at hct
            injection hct with h1 _
            rw [← h1]
            decide
          · rw [hPshape, List.cons_append] at hct
            injection hct with h1 _
            rw [← h1]
            exact hhead hs hnet hP2 c1 t1 hPshape
      have hsplit1 : schemeSplit (P ++ '?' :: (utm ++
          (if frag ≠ [] then '#' :: frag else []))) =
          ([], P ++ '?' :: (utm ++
            (if frag ≠ [] then '#' :: frag else []))) := by
        apply schemeSplit_none_of
        intro q0 qs t2 hdec hq0ne hvalid
        have htwdec : (P ++ '?' :: (utm ++
            (if frag ≠ [] then '#' :: frag else []))).takeWhile
              (fun c => c ≠ ':') = q0 :: qs := by
          rw [hdec]
          exact (split_at_first ':' _ t2 hq0ne).1
        by_cases hPc : ':' ∈ P
        · obtain ⟨hPdec, hPfree⟩ := split_first_mem ':' P hPc
          have hout2 : P ++ '?' :: (utm ++
              (if frag ≠ [] then '#' :: frag else [])) =
              P.takeWhile (fun c => c ≠ ':') ++ ':' ::
                (((P.dropWhile (fun c => c ≠ ':')).tail) ++ '?' :: (utm ++
                  (if frag ≠ [] then '#' :: frag else []))) := by
            conv_lhs => rw [hPdec]
            simp [List.append_assoc]
          have htwP : (P ++ '?' :: (utm ++
              (if frag ≠ [] then '#' :: frag else []))).takeWhile
                (fun c => c ≠ ':') = P.takeWhile (fun c => c ≠ ':') := by
            rw [hout2]
            exact (split_at_first ':' _ _ hPfree).1
          have heqtw : P.takeWhile (fun c => c ≠ ':') = q0 :: qs := by
            rw [← htwP, htwdec]
          have hPd : P = (q0 :: qs) ++ ':' ::
              ((P.dropWhile (fun c => c ≠ ':')).tail) := by
            rw [← heqtw]
            exact hPdec
          exact hnos hs q0 qs _ hPd (heqtw ▸ hPfree) hvalid
        · have hPfree : ∀ c ∈ P, c ≠ ':' :=
            fun c hc hcc => hPc (hcc ▸ hc)
          have hPall : ∀ c ∈ P, (fun c => decide (c ≠ ':')) c = true :=
            fun c hc => by simp [hPfree c hc]
          have htwP : (P ++ '?' :: (utm ++
              (if frag ≠ [] then '#' :: frag else []))).takeWhile
                (fun c => c ≠ ':') =
              P ++ '?' :: ((utm ++
                (if frag ≠ [] then '#' :: frag else [])).takeWhile
                  (fun c => c ≠ ':')) := by
            rw [takeWhile_append_all _ _ hPall, List.takeWhile_cons,
              if_pos (by decide)]
          have hqm : ('?' : Char) ∈ q0 :: qs := by
            rw [← htwdec, htwP]
            exact List.mem_append.mpr (Or.inr (List.mem_cons_self _ _))
          have := hvalid.2 '?' hqm
          exact absurd this (by decide)
      simp only [urlsplitM, hpre, hsplit1, hsplit2, hfragS, hqS, hnet, hs]

theorem isNetlocEnd_elim (c : Char) (h : isNetlocEnd c = true) :
    c = '/' ∨ c = '?' ∨ c = '#' := by
  rw [isNetlocEnd_toNat] at h
  rcases h with h | h | h
  · left
    exact char_toNat_eq c '/' (by rw [h]; rfl)
  · right; left
    exact char_toNat_eq c '?' (by rw [h]; rfl)
  · right; right
    exact char_toNat_eq c '#' (by rw [h]; rfl)

theorem netlocSplit_cases (A : List Char) :
    (netlocSplit A = ([], A) ∧ ∀ rest, A ≠ '/' :: '/' :: rest) ∨
    (∃ rest, A = '/' :: '/' :: rest ∧
      netlocSplit A = (rest.takeWhile (fun c => !isNetlocEnd c),
                       rest.dropWhile (fun c => !isNetlocEnd c))) := by
  unfold netlocSplit
  split
  · next rest => right; exact ⟨rest, rfl, rfl⟩
  · next h =>
    left
    exact ⟨rfl, fun rest hc => h rest hc⟩

/-- The invariants every `urlsplit` result satisfies; exactly the
hypotheses the `urlunsplit` re-parse needs (stated for the raw path; the
rejoined path of `urlunparse` inherits them). -/
theorem urlsplitM_inv (l : List Char) :
    ((urlsplitM l).scheme = [] ∨ (∃ p0 ps, (urlsplitM l).scheme = p0 :: ps ∧
        isAsciiAlpha p0 = true ∧
        (∀ c ∈ (urlsplitM l).scheme, isSchemeChar c = true) ∧
        lowerL (urlsplitM l).scheme = (urlsplitM l).scheme)) ∧
    (∀ c ∈ (urlsplitM l).netloc, isNetlocEnd c = false) ∧
    (∀ c ∈ (urlsplitM l).rawpath, c ≠ '?' ∧ c ≠ '#') ∧
    ((urlsplitM l).netloc ≠ [] → (urlsplitM l).rawpath = [] ∨
        ∃ t, (urlsplitM l).rawpath = '/' :: t) ∧
    ((urlsplitM l).scheme = [] → ∀ q0 qs t2,
        (urlsplitM l).rawpath = (q0 :: qs) ++ ':' :: t2 →
        (∀ c ∈ q0 :: qs, c ≠ ':') →
        ¬(isAsciiAlpha q0 = true ∧ ∀ c ∈ q0 :: qs, isSchemeChar c = true)) ∧
    (∀ c ∈ (urlsplitM l).netloc, isUnsafeUrlByte c = false) ∧
    (∀ c ∈ (urlsplitM l).rawpath, isUnsafeUrlByte c = false) ∧
    (∀ c ∈ (urlsplitM l).fragment, isUnsafeUrlByte c = false) ∧
    ((urlsplitM l).scheme = [] → ∀ c t,
        (urlsplitM l).rawpath = c :: t → isC0OrSpace c = false) := by
  have hu'unsafe := preprocess_unsafe_free l
  have hu'head := preprocess_head_not_space l
  -- the after-scheme part and a proof that it sits inside the
  -- preprocessed input
  rcases hsc : schemeSplit (preprocessUrl l) with ⟨scheme0, A⟩
  have hsc1 : (urlsplitM l).scheme = scheme0 := by
    show (schemeSplit (preprocessUrl l)).1 = scheme0
    rw [hsc]
  have hsc2 : ∀ X : SplitR → List Char,
      (∀ r : SplitR, True) → True := fun _ _ => trivial
  -- facts about A
  have hAfacts : (∀ c ∈ A, c ∈ preprocessUrl l) ∧
      (scheme0 = [] → A = preprocessUrl l) := by
    rcases schemeSplit_cases (preprocessUrl l) with ⟨heq, _⟩ |
      ⟨p0, ps, t, hdec, _, _, heq⟩
    · rw [hsc] at heq
      injection heq with e1 e2
      constructor
      · intro c hc
        rw [e2] at hc
        exact hc
      · intro _
        exact e2.symm ▸ rfl
    · rw [hsc] at heq
      injection heq with e1 e2
      constructor
      · intro c hc
        rw [e2] at hc
        rw [hdec]
        exact List.mem_append.mpr (Or.inr (List.mem_cons_of_mem ':' hc))
      · intro hnil
        rw [hnil] at e1
        simp [lowerL] at e1
  -- the scheme invariant
  have hSinv : (urlsplitM l).scheme = [] ∨
      (∃ p0 ps, (urlsplitM l).scheme = p0 :: ps ∧ isAsciiAlpha p0 = true ∧
        (∀ c ∈ (urlsplitM l).scheme, isSchemeChar c = true) ∧
        lowerL (urlsplitM l).scheme = (urlsplitM l).scheme) := by
    rcases schemeSplit_cases (preprocessUrl l) with ⟨heq, _⟩ |
      ⟨p0, ps, t, hdec, hall, halpha, heq⟩
    · left
      have hcomb := hsc.symm.trans heq
      injection hcomb with e1 _
      rw [hsc1, e1]
    · right
      rw [hsc1]
      have hcomb := hsc.symm.trans heq
      injection hcomb with e1 _
      obtain ⟨hlall, hlid⟩ := lowerL_schemeChars (p0 :: ps) hall
      refine ⟨Char.toLower p0, lowerL ps, by rw [e1]; rfl, ?_, ?_, ?_⟩
      · exact (toLower_schemeChar p0 (hall p0 (List.mem_cons_self p0 ps))).2.1 halpha
      · rw [e1]
        exact hlall
      · rw [e1]
        exact hlid
  refine ⟨hSinv, ?_⟩
  -- netloc analysis
  rcases netlocSplit_cases A with ⟨hne, hnoslash⟩ | ⟨rest, hAeq, hne⟩
  · -- no authority component: netloc = [] and the path scans A itself
    have hnl : (urlsplitM l).netloc = [] := by
      show (netlocSplit (schemeSplit (preprocessUrl l)).2).1 = []
      rw [hsc]
      show (netlocSplit A).1 = []
      rw [hne]
    have hB : (netlocSplit (schemeSplit (preprocessUrl l)).2).2 = A := by
      rw [hsc]
      show (netlocSplit A).2 = A
      rw [hne]
    have hrp : (urlsplitM l).rawpath =
        (A.takeWhile (fun c => c ≠ '#')).takeWhile (fun c => c ≠ '?') := by
      show (querySplit (fragSplit
        (netlocSplit (schemeSplit (preprocessUrl l)).2).2).1).1 = _
      rw [hB]
      rfl
    have hfr : (urlsplitM l).fragment =
        ((A.dropWhile (fun c => c ≠ '#'))).tail := by
      show (fragSplit (netlocSplit (schemeSplit (preprocessUrl l)).2).2).2 = _
      rw [hB]
      rfl
    have hrpmemA : ∀ c ∈ (urlsplitM l).rawpath, c ∈ A := by
      intro c hc
      rw [hrp] at hc
      exact (List.takeWhile_sublist _).mem
        ((List.takeWhile_sublist _).mem hc)
    have hrpu' : ∀ c ∈ (urlsplitM l).rawpath, c ∈ preprocessUrl l :=
      fun c hc => hAfacts.1 c (hrpmemA c hc)
    refine ⟨?_, ?_, ?_, ?_, ?_, ?_, ?_, ?_⟩
    · rw [hnl]
      intro c hc
      simp at hc
    · intro c hc
      constructor
      · have := List.mem_takeWhile_imp (hrp ▸ hc)
        simpa using this
      · have : c ∈ A.takeWhile (fun c => c ≠ '#') :=
          (List.takeWhile_sublist _).mem (hrp ▸ hc)
        have := List.mem_takeWhile_imp this
        simpa using this
    · intro hcontra
      exact absurd hnl hcontra
    · -- transfer a colon decomposition of the raw path to the whole input
      intro hs0 q0 qs t2 hdecrp hqfree hvalid
      have hAeq' : A = preprocessUrl l := hAfacts.2 (by rw [← hsc1]; exact hs0)
      -- the raw path is a prefix of A
      have hApre : ∃ z, A = (urlsplitM l).rawpath ++ z := by
        refine ⟨(A.takeWhile (fun c => c ≠ '#')).dropWhile (fun c => c ≠ '?') ++
          A.dropWhile (fun c => c ≠ '#'), ?_⟩
        rw [hrp, ← List.append_assoc, List.takeWhile_append_dropWhile,
          List.takeWhile_append_dropWhile]
      obtain ⟨z, hz⟩ := hApre
      rcases schemeSplit_cases (preprocessUrl l) with ⟨_, hnone⟩ |
        ⟨p0, ps, t, hdec, hall, halpha, heq⟩
      · refine hnone q0 qs (t2 ++ z) ?_ hqfree hvalid
        rw [← hAeq', hz, hdecrp]
        simp [List.append_assoc]
      · rw [hsc] at heq
        injection heq with e1 _
        rw [hsc1] at hs0
        rw [hs0] at e1
        simp [lowerL] at e1
    · rw [hnl]
      intro c hc
      simp at hc
    · exact fun c hc => hu'unsafe c (hrpu' c hc)
    · intro c hc
      rw [hfr] at hc
      have : c ∈ A :=
        (List.dropWhile_sublist _).mem ((List.tail_sublist _).mem hc)
      exact hu'unsafe c (hAfacts.1 c this)
    · intro hs0 c t hct
      have hAeq' : A = preprocessUrl l := hAfacts.2 (by rw [← hsc1]; exact hs0)
      rw [hrp] at hct
      obtain ⟨t2, hA2, _⟩ := takeWhile_cons_inv _ c _ hct
      obtain ⟨t3, hA3, _⟩ := takeWhile_cons_inv _ c _ hA2
      exact hu'head c t3 (by rw [← hAeq']; exact hA3)
  · -- authority component: `A = // ++ rest`
    have hnl : (urlsplitM l).netloc =
        rest.takeWhile (fun c => !isNetlocEnd c) := by
      show (netlocSplit (schemeSplit (preprocessUrl l)).2).1 = _
      rw [hsc]
      show (netlocSplit A).1 = _
      rw [hne]
    have hB : (netlocSplit (schemeSplit (preprocessUrl l)).2).2 =
        rest.dropWhile (fun c => !isNetlocEnd c) := by
      rw [hsc]
      show (netlocSplit A).2 = _
      rw [hne]
    have hrp : (urlsplitM l).rawpath =
        (((rest.dropWhile (fun c => !isNetlocEnd c)).takeWhile
          (fun c => c ≠ '#')).takeWhile (fun c => c ≠ '?')) := by
      show (querySplit (fragSplit
        (netlocSplit (schemeSplit (preprocessUrl l)).2).2).1).1 = _
      rw [hB]
      rfl
    have hfr : (urlsplitM l).fragment =
        (((rest.dropWhile (fun c => !isNetlocEnd c)).dropWhile
          (fun c => c ≠ '#'))).tail := by
      show (fragSplit (netlocSplit (schemeSplit (preprocessUrl l)).2).2).2 = _
      rw [hB]
      rfl
    have hrestmem : ∀ c ∈ rest, c ∈ preprocessUrl l := by
      intro c hc
      apply hAfacts.1
      rw [hAeq]
      exact List.mem_cons_of_mem _ (List.mem_cons_of_mem _ hc)
    have hrpmem : ∀ c ∈ (urlsplitM l).rawpath, c ∈ rest := by
      intro c hc
      rw [hrp] at hc
      exact (List.dropWhile_sublist _).mem
        ((List.takeWhile_sublist _).mem ((List.takeWhile_sublist _).mem hc))
    -- the raw path is empty or starts with a slash
    have hrpshape : (urlsplitM l).rawpath = [] ∨
        ∃ t, (urlsplitM l).rawpath = '/' :: t := by
      rcases hd : rest.dropWhile (fun c => !isNetlocEnd c) with _ | ⟨c, t⟩
      · left
        rw [hrp, hd]
        rfl
      · have hcend : isNetlocEnd c = true := by
          have := dropWhile_head_false rest c t hd
          simpa using this
        rcases isNetlocEnd_elim c hcend with rfl | rfl | rfl
        · right
          rw [hrp, hd]
          refine ⟨(t.takeWhile (fun c => c ≠ '#')).takeWhile (fun c => c ≠ '?'), ?_⟩
          rw [List.takeWhile_cons, if_pos (by decide), List.takeWhile_cons,
            if_pos (by decide)]
        · left
          rw [hrp, hd, List.takeWhile_cons, if_pos (by decide),
            List.takeWhile_cons, if_neg (by simp)]
        · left
          rw [hrp, hd, List.takeWhile_cons, if_neg (by simp)]
          rfl
    refine ⟨?_, ?_, ?_, ?_, ?_, ?_, ?_, ?_⟩
    · intro c hc
      rw [hnl] at hc
      have := List.mem_takeWhile_imp hc
      simpa using this
    · intro c hc
      constructor
      · have := List.mem_takeWhile_imp (hrp ▸ hc)
        simpa using this
      · have : c ∈ ((rest.dropWhile (fun c => !isNetlocEnd c)).takeWhile
            (fun c => c ≠ '#')) :=
          (List.takeWhile_sublist _).mem (hrp ▸ hc)
        have := List.mem_takeWhile_imp this
        simpa using this
    · intro _
      exact hrpshape
    · intro _ q0 qs t2 hdecrp _ hvalid
      rcases hrpshape with hnil | ⟨t, hcons⟩
      · rw [hdecrp] at hnil
        simp at hnil
      · rw [hdecrp] at hcons
        injection hcons with e1 _
        rw [e1] at hvalid
        exact absurd hvalid.1 (by decide)
    · intro c hc
      rw [hnl] at hc
      exact hu'unsafe c (hrestmem c ((List.takeWhile_sublist _).mem hc))
    · exact fun c hc => hu'unsafe c (hrestmem c (hrpmem c hc))
    · intro c hc
      rw [hfr] at hc
      have : c ∈ rest :=
        (List.dropWhile_sublist _).mem ((List.dropWhile_sublist _).mem
          ((List.tail_sublist _).mem hc))
      exact hu'unsafe c (hrestmem c this)
    · intro _ c t hct
      rcases hrpshape with hnil | ⟨t', hcons⟩
      · rw [hct] at hnil
        simp at hnil
      · rw [hct] at hcons
        injection hcons with e1 _
        rw [e1]
        decide

/-- The full round trip of the UTM installers: re-parsing the URL
rebuilt by `urlunparse` from a parse result, with the query replaced by a
partner UTM string, recovers every component, the new query included. -/
theorem urlparse_roundtrip (l utm : List Char) (hq : goodQueryChars utm) :
    urlparseM (urlunsplitM (urlsplitM l).scheme (urlsplitM l).netloc
      (rejoinParams (splitParamsM (urlsplitM l).rawpath)) utm
      (urlsplitM l).fragment) =
    ⟨(urlsplitM l).scheme, (urlsplitM l).netloc,
     (splitParamsM (urlsplitM l).rawpath).1,
     (splitParamsM (urlsplitM l).rawpath).2, utm,
     (urlsplitM l).fragment⟩ := by
  obtain ⟨hS, hN, hPq, hshape, hnos, hUn, hUP, hUf, hhead⟩ := urlsplitM_inv l
  obtain ⟨hresplit, hPshape⟩ := splitParams_spec (urlsplitM l).rawpath
  have hPsub : ∀ c ∈ rejoinParams (splitParamsM (urlsplitM l).rawpath),
      c ∈ (urlsplitM l).rawpath := by
    intro c hc
    rcases hPshape with heq | heq
    · rw [heq] at hc
      exact hc
    · rw [← heq]
      exact List.mem_append.mpr (Or.inl hc)
  have hPq' : ∀ c ∈ rejoinParams (splitParamsM (urlsplitM l).rawpath),
      c ≠ '?' ∧ c ≠ '#' := fun c hc => hPq c (hPsub c hc)
  have hUP' : ∀ c ∈ rejoinParams (splitParamsM (urlsplitM l).rawpath),
      isUnsafeUrlByte c = false := by
    intro c hc
    rcases hPshape with heq | heq
    · rw [heq] at hc
      exact hUP c hc
    · exact hUP c (hPsub c hc)
  have hshape' : (urlsplitM l).netloc ≠ [] →
      rejoinParams (splitParamsM (urlsplitM l).rawpath) = [] ∨
      ∃ t, rejoinParams (splitParamsM (urlsplitM l).rawpath) = '/' :: t := by
    intro hn
    rcases hshape hn with hnil | ⟨t, hcons⟩
    · left
      rcases hPshape with heq | heq
      · rw [heq]
        exact hnil
      · exfalso
        rw [hnil] at heq
        simp at heq
    · rcases hPshape with heq | heq
      · right
        exact ⟨t, by rw [heq, hcons]⟩
      · rcases hPl : rejoinParams (splitParamsM (urlsplitM l).rawpath) with
          _ | ⟨c, t'⟩
        · left
          rfl
        · right
        -- the head of the rejoined path is the head of the raw path
          rw [hPl] at heq
          have hcomb := heq.trans hcons
          rw [List.cons_append] at hcomb
          injection hcomb with e1 _
          exact ⟨t', by rw [e1]⟩
  have hnos' : (urlsplitM l).scheme = [] → ∀ q0 qs t2,
      rejoinParams (splitParamsM (urlsplitM l).rawpath) =
        (q0 :: qs) ++ ':' :: t2 →
      (∀ c ∈ q0 :: qs, c ≠ ':') →
      ¬(isAsciiAlpha q0 = true ∧ ∀ c ∈ q0 :: qs, isSchemeChar c = true) := by
    intro hs0 q0 qs t2 hdec hfree
    rcases hPshape with heq | heq
    · exact hnos hs0 q0 qs t2 (by rw [← heq]; exact hdec) hfree
    · apply hnos hs0 q0 qs (t2 ++ [';'])
      · rw [← heq, hdec]
        simp [List.append_assoc]
      · exact hfree
  have hhead' : (urlsplitM l).scheme = [] → (urlsplitM l).netloc = [] →
      (rejoinParams (splitParamsM (urlsplitM l).rawpath)).take 2 ≠ ['/', '/'] →
      ∀ c t, rejoinParams (splitParamsM (urlsplitM l).rawpath) = c :: t →
      isC0OrSpace c = false := by
    intro hs0 _ _ c t hct
    rcases hPshape with heq | heq
    · exact hhead hs0 c t (by rw [← heq]; exact hct)
    · exact hhead hs0 c (t ++ [';']) (by rw [← heq, hct]; rfl)
  have hmain := urlunsplit_reparse (urlsplitM l).scheme (urlsplitM l).netloc
    (rejoinParams (splitParamsM (urlsplitM l).rawpath)) utm
    (urlsplitM l).fragment hS hN hPq' hshape' hnos' hq hUn hUP' hUf hhead'
  simp only [urlparseM, hmain, hresplit]

/-! ## C5: the UTM tagging claims -/

/-- C5 counterexample: the Smartlions `add_utm` first `norm_str`s its
input, so a URL with surrounding whitespace and an existing query is
returned trimmed — not unchanged — refuting the claim as stated. -/
theorem addUtm_counterexample :
    (urlparseM (" http://x.com/?a=1" : String).data).query ≠ [] ∧
    addUtm " http://x.com/?a=1" = "http://x.com/?a=1" ∧
    ("http://x.com/?a=1" : String) ≠ " http://x.com/?a=1" := by
  refine ⟨by decide, by decide, by decide⟩

/-- C5 (amended): the Jobat tagger returns any URL with a non-empty parsed
query unchanged and maps `""` to `""`; the Smartlions tagger does the same
after trimming its input (returning the trimmed input, which equals the
input whenever the input carries no surrounding whitespace; a blank input
yields `""`); and for a non-empty URL with empty parsed query, the
output's parsed query is exactly the partner's fixed UTM string while the
parsed scheme, netloc, path, params and fragment components are all
preserved. -/
theorem utm_tagging_amended :
    (∀ u : String, u ≠ "" → (urlparseM u.data).query ≠ [] →
      addJobatUtm u = u) ∧
    (∀ u : String, pyStrip u ≠ "" →
      (urlparseM (pyStrip u).data).query ≠ [] → addUtm u = pyStrip u) ∧
    (addJobatUtm "" = "" ∧ ∀ u : String, pyStrip u = "" → addUtm u = "") ∧
    (∀ u : String, u ≠ "" → (urlparseM u.data).query = [] →
      urlparseM (addJobatUtm u).data =
        { urlparseM u.data with query := utmJobat }) ∧
    (∀ u : String, pyStrip u ≠ "" →
      (urlparseM (pyStrip u).data).query = [] →
      urlparseM (addUtm u).data =
        { urlparseM (pyStrip u).data with query := utmSmartlions }) := by
  refine ⟨?_, ?_, ⟨rfl, ?_⟩, ?_, ?_⟩
  · intro u hu hq
    simp only [addJobatUtm]
    rw [if_neg hu, if_pos hq]
  · intro u hu hq
    simp only [addUtm]
    rw [if_neg hu, if_pos hq]
  · intro u hu
    simp only [addUtm]
    rw [if_pos hu, hu]
  · intro u hu hq
    simp only [addJobatUtm]
    rw [if_neg hu, if_neg (fun hc => hc hq)]
    exact urlparse_roundtrip u.data utmJobat utmJobat_good
  · intro u hu hq
    simp only [addUtm]
    rw [if_neg hu, if_neg (fun hc => hc hq)]
    exact urlparse_roundtrip (pyStrip u).data utmSmartlions utmSmartlions_good

/-- Witness for C5 (amended) at concrete URLs. -/
theorem utm_tagging_amended_witness :
    addJobatUtm "http://x.com/page?id=1" = "http://x.com/page?id=1" ∧
    addUtm " http://y.be/p?a=2" = "http://y.be/p?a=2" ∧
    urlparseM (addJobatUtm "http://x.com/page").data =
      { urlparseM ("http://x.com/page" : String).data with query := utmJobat } ∧
    urlparseM (addUtm "http://y.be/p").data =
      { urlparseM (pyStrip "http://y.be/p").data with query := utmSmartlions } :=
  ⟨utm_tagging_amended.1 "http://x.com/page?id=1" (by decide) (by decide),
   utm_tagging_amended.2.1 " http://y.be/p?a=2" (by decide) (by decide),
   utm_tagging_amended.2.2.2.1 "http://x.com/page" (by decide) (by decide),
   utm_tagging_amended.2.2.2.2 "http://y.be/p" (by decide) (by decide)⟩

/-! ## C9: determinism of the pipelines -/

/-- C9: both pipelines are deterministic functions of the fetched source
records: two runs over identical fetched course and session records (and
the same configured link field) serialize to byte-identical JSON
documents. -/
theorem pipeline_deterministic (crs1 srs1 crs2 srs2 : List SourceRec)
    (lf1 lf2 : String) (hc : crs1 = crs2) (hs : srs1 = srs2)
    (hl : lf1 = lf2) :
    jobatSerialized crs1 srs1 = jobatSerialized crs2 srs2 ∧
    smartlionsSerialized crs1 srs1 lf1 = smartlionsSerialized crs2 srs2 lf2 := by
  subst hc; subst hs; subst hl
  exact ⟨rfl, rfl⟩

/-- Witness for C9 at a concrete fetched state. -/
theorem pipeline_deterministic_witness :
    jobatSerialized [⟨"r1", [("internal_id", Value.str "A")]⟩] [] =
      jobatSerialized [⟨"r1", [("internal_id", Value.str "A")]⟩] [] ∧
    smartlionsSerialized [⟨"r1", [("internal_id", Value.str "A")]⟩] [] "Course" =
      smartlionsSerialized [⟨"r1", [("internal_id", Value.str "A")]⟩] [] "Course" :=
  pipeline_deterministic _ _ _ _ _ _ rfl rfl rfl

/-! ## C10: duration_length divergence between the two assemblers -/

/-- C10: the Smartlions assembler emits `duration_length` as the raw source
field value unchanged (null when the field is absent) and never applies the
Jobat duration formatting; the Jobat assembler formats the same source
field with `duration_length_format`. -/
theorem smartlions_duration_raw (crs srs : List SourceRec) (lf : String)
    (cr : SourceRec) (srs2 : List SourceRec) (cr2 : SourceRec) :
    (assembleSmartlions crs lf srs cr).duration_length =
      fget cr.fields "duration_length" Value.null ∧
    (assembleJobat srs2 cr2).duration_length =
      durationLengthFormat (fget cr2.fields "duration_length" (Value.str "")) :=
  ⟨rfl, rfl⟩

end KdgExport
